import Mathlib

/-!
A verification development for the parallel-action planner `PPA.py`.

The Python source is shallowly embedded: every Python function becomes a
Lean function of the same name, Python `dict`s become insertion-ordered
association lists (first occurrence of a key keeps its position, assignment
overwrites in place, fresh keys are appended at the end), Python exceptions
become an explicit `PyErr` sum carried in `Except`, and the two
source-level unbounded loops (the per-action stage search and the DFS /
scheduling recursions) are given an explicit fuel parameter: a result of
`none` means the run did not finish within the given fuel, and a result of
`some r` means the Python program terminates with outcome `r`.

The process-wide global `recent_handler` dictionary is modelled by explicit
state passing: `plan_parallel_actions` receives the handler map left by
earlier calls and returns the handler map it leaves behind.
-/

namespace PPA

/-- `Agent` record of the source: identifier plus constraint tags. -/
structure Agent where
  id : String
  constraints : List String
deriving DecidableEq, Repr

/-- `Action` record of the source.  The Python `required_agents` dict
`{"min": m, "max": M}` is flattened into the two fields `reqMin`/`reqMax`. -/
structure Action where
  id : String
  type : String
  objects : List String
  description : String
  reqMin : Nat
  reqMax : Nat
  depends_on : List String
  transfers_objects_to : List String
deriving DecidableEq, Repr

/-- `ActionAssignment` record of the source. -/
structure ActionAssignment where
  action_id : String
  assigned_agents : List Agent
  stage : Nat
  description : String
deriving DecidableEq, Repr

/-- `PlanningResult` record of the source; both dicts are kept as
insertion-ordered association lists. -/
structure PlanningResult where
  stages : List (Nat × List ActionAssignment)
  action_dependencies : List (String × List String)
deriving DecidableEq, Repr

/-- The Python exceptions raised by the source, one constructor per raise
site (plus the runtime errors Python itself would raise). -/
inductive PyErr where
  /-- `ValueError(f"Action {a.id} depends on non-existent action {dep}")` -/
  | missingDep (actionId depId : String)
  /-- `ValueError(f"Cycle detected starting at {a.id}")` -/
  | cycleAt (actionId : String)
  /-- `Exception("Unable to schedule tasks: ...")` -/
  | unableToSchedule (remaining : List String)
  /-- Python `IndexError` from `assigned[0]` on an empty assignment list. -/
  | indexError
  /-- Python `KeyError` from `assigned_actions[dep]`. -/
  | keyError
deriving DecidableEq, Repr

/-! ### Association-list model of Python `dict` -/

/-- First-match lookup in an association list (Python `d[k]` / `d.get(k)`). -/
def alookup {κ α : Type} [DecidableEq κ] : List (κ × α) → κ → Option α
  | [], _ => none
  | (k, v) :: rest, key => if k = key then some v else alookup rest key

/-- Python `d[k] = v`: overwrite in place if the key exists, else append. -/
def dictInsert {κ α : Type} [DecidableEq κ] (l : List (κ × α)) (k : κ) (v : α) :
    List (κ × α) :=
  if l.any (fun p => p.1 = k) then
    l.map (fun p => if p.1 = k then (k, v) else p)
  else l ++ [(k, v)]

/-- Python dict comprehension `{a.id: a for a in actions}` (first occurrence
keeps the position, later occurrences overwrite the value). -/
def actionDict (actions : List Action) : List (String × Action) :=
  actions.foldl (fun d a => dictInsert d a.id a) []

/-- Values of `actionDict`, i.e. Python `unassigned_actions.values()`. -/
def actionDictValues (actions : List Action) : List Action :=
  (actionDict actions).map Prod.snd

/-! ### Stable descending sort, modelling `sorted(key=..., reverse=True)` -/

/-- Insert `x` before the first element with a strictly smaller key; after a
run of equal keys.  Used to model Python's stable descending sort. -/
def insertDesc {α : Type} (key : α → Nat) (x : α) : List α → List α
  | [] => [x]
  | y :: ys => if key y < key x then x :: y :: ys else y :: insertDesc key x ys

/-- Stable sort, descending by `key`: Python `sorted(l, key=key, reverse=True)`. -/
def sortDesc {α : Type} (key : α → Nat) (l : List α) : List α :=
  l.foldl (fun acc x => insertDesc key x acc) []

/-! ### `validate_dependencies` -/

/-- The first `(a.id, dep)` pair, in source iteration order, for which `dep`
names no action; mirrors the first loop of `validate_dependencies`. -/
def findMissing (actions : List Action) : Option (String × String) :=
  actions.findSome? (fun a =>
    (a.depends_on.find? (fun dep => ¬ actions.any (fun x => x.id = dep))).map
      (fun dep => (a.id, dep)))

/-- Dependency list of the first action named `aid`
(Python `next(x for x in actions if x.id == aid).depends_on`); `[]` when no
action is named `aid` (in the source this case would raise `StopIteration`,
but it is unreachable inside `validate_dependencies`, which runs the
missing-dependency scan first). -/
def depsOf (actions : List Action) (aid : String) : List String :=
  ((actions.find? (fun x => x.id = aid)).map (fun x => x.depends_on)).getD []

/-- Argument of the DFS worker: either entering a node, or iterating the
`for dep in a.depends_on` loop. -/
inductive CycleJob where
  | node (aid : String)
  | deps (ds : List String)
deriving DecidableEq, Repr

/-- The recursive `has_cycle(aid, visited, path)` of the source, fuelled.
Returns the boolean result together with the updated `visited` set; the
`path` set is passed functionally, so the source's `path.remove(aid)` on the
`False` exit is implicit.  `none` means the fuel ran out. -/
def has_cycle (actions : List Action) :
    Nat → CycleJob → List String → List String → Option (Bool × List String)
  | 0, _, _, _ => none
  | _fuel + 1, .node aid, visited, path =>
    if aid ∈ path then some (true, visited)
    else if aid ∈ visited then some (false, visited)
    else has_cycle actions _fuel (.deps (depsOf actions aid))
      (aid :: visited) (aid :: path)
  | _fuel + 1, .deps [], visited, _ => some (false, visited)
  | _fuel + 1, .deps (d :: ds), visited, path =>
    match has_cycle actions _fuel (.node d) visited path with
    | none => none
    | some (true, v) => some (true, v)
    | some (false, v) => has_cycle actions _fuel (.deps ds) v path

/-- The final loop of `validate_dependencies`: scan every action, skipping
ones already visited, raising at the first cycle found. -/
def cycle_scan (actions : List Action) (fuel : Nat) :
    List Action → List String → Option (Except PyErr Unit)
  | [], _ => some (.ok ())
  | a :: rest, visited =>
    if a.id ∈ visited then cycle_scan actions fuel rest visited
    else
      match has_cycle actions fuel (.node a.id) visited [] with
      | none => none
      | some (true, _) => some (.error (.cycleAt a.id))
      | some (false, v) => cycle_scan actions fuel rest v

/-- `validate_dependencies(actions)` of the source, fuelled. -/
def validate_dependencies (fuel : Nat) (actions : List Action) :
    Option (Except PyErr Unit) :=
  match findMissing actions with
  | some (aid, dep) => some (.error (.missingDep aid dep))
  | none => cycle_scan actions fuel actions []

/-! ### Scheduling helpers -/

/-- The `used_ids` set of `get_free_agents`: ids of agents already committed
to some assignment of the stage. -/
def used_ids (stage : Nat)
    (stage_assignments : List (Nat × List ActionAssignment)) : List String :=
  ((alookup stage_assignments stage).getD []).flatMap
    (fun assignment => assignment.assigned_agents.map (fun agent => agent.id))

/-- `get_free_agents(stage, stage_assignments, available_agents)`. -/
def get_free_agents (stage : Nat)
    (stage_assignments : List (Nat × List ActionAssignment))
    (available_agents : List Agent) : List Agent :=
  available_agents.filter
    (fun agent => ¬ agent.id ∈ used_ids stage stage_assignments)

/-- `can_do_action(agent, action_type)`. -/
def can_do_action (agent : Agent) (action_type : String) : Prop :=
  ¬ ("can't_" ++ action_type) ∈ agent.constraints

instance (agent : Agent) (t : String) : Decidable (can_do_action agent t) :=
  inferInstanceAs (Decidable (¬ _ ∈ _))

/-- `update_object_tracking(action, assigned)`, acting on an explicit
handler map.  `assigned[0]` on an empty list is Python's `IndexError`; it is
only evaluated when the object loop iterates at least once. -/
def update_object_tracking (action : Action) (assigned : List Agent)
    (handler : List (String × Agent)) : Except PyErr (List (String × Agent)) :=
  if action.type = "fetch" ∨ action.type = "attach" then
    match assigned with
    | a0 :: _ =>
      .ok (action.objects.foldl (fun h obj => dictInsert h obj a0) handler)
    | [] => if action.objects.isEmpty then .ok handler else .error .indexError
  else .ok handler

/-! ### `schedule_task` -/

/-- The `for obj in task.objects` preferred-candidate loop of
`schedule_task`: append the recorded recent handler of each object, in
object order, when it is free and not yet listed. -/
def preferred_agents (objects : List String) (handler : List (String × Agent))
    (free_agents : List Agent) (pref0 : List Agent) : List Agent :=
  objects.foldl (fun pref obj =>
    match alookup handler obj with
    | some agent =>
      if agent ∈ free_agents ∧ ¬ agent ∈ pref then pref ++ [agent] else pref
    | none => pref) pref0

/-- The `free_agents` local of `schedule_task` at one candidate stage: free
agents of the stage, filtered by `can_do_action`. -/
def free_qualified (task : Action) (stage : Nat)
    (stage_assignments : List (Nat × List ActionAssignment))
    (available_agents : List Agent) : List Agent :=
  (get_free_agents stage stage_assignments available_agents).filter
    (fun agent => can_do_action agent task.type)

/-- The body of the `while True` loop of `schedule_task`, at one candidate
stage: the qualified free agents, the preferred (recent-handler) subset, and
the fill-up-to-minimum rule.  `some assigned` is the `break` path, `none` is
the `stage += 1; continue` path. -/
def schedule_attempt (task : Action) (stage : Nat)
    (stage_assignments : List (Nat × List ActionAssignment))
    (available_agents : List Agent)
    (handler : List (String × Agent)) : Option (List Agent) :=
  let free_agents := free_qualified task stage stage_assignments available_agents
  let required_count := task.reqMin
  let preferred := preferred_agents task.objects handler free_agents []
  if required_count ≤ preferred.length then
    some (preferred.take required_count)
  else
    let assigned := preferred
    let others := free_agents.filter (fun agent => ¬ agent ∈ assigned)
    if required_count ≤ assigned.length + others.length then
      some (assigned ++ others.take (required_count - assigned.length))
    else none

/-- The `while True` stage-search loop of `schedule_task`, fuelled: try the
desired stage, incrementing until `schedule_attempt` succeeds.  Returns the
chosen agents together with the stage at which the action is placed. -/
def stage_search (available_agents : List Agent) (handler : List (String × Agent))
    (stage_assignments : List (Nat × List ActionAssignment)) :
    Nat → Action → Nat → Option (List Agent × Nat)
  | 0, _, _ => none
  | fuel + 1, task, stage =>
    match schedule_attempt task stage stage_assignments available_agents handler with
    | some assigned => some (assigned, stage)
    | none => stage_search available_agents handler stage_assignments fuel task (stage + 1)

/-- The mutable state threaded through `plan_parallel_actions`:
`stage_assignments`, `assigned_actions`, `unassigned_actions` (dict values)
and the global `recent_handler`. -/
structure SchedState where
  stage_assignments : List (Nat × List ActionAssignment)
  assigned_actions : List (String × Nat)
  unassigned : List Action
  handler : List (String × Agent)
deriving DecidableEq, Repr

/-- `stage_assignments.setdefault(stage, []).append(assignment)`. -/
def addStage (sa : List (Nat × List ActionAssignment)) (stage : Nat)
    (a : ActionAssignment) : List (Nat × List ActionAssignment) :=
  dictInsert sa stage (((alookup sa stage).getD []) ++ [a])

/-- State change of a successful loop exit in `schedule_task`: record the
assignment, mark the action assigned, delete it from the unassigned dict. -/
def recordAssignment (task : Action) (assigned : List Agent) (stage : Nat)
    (st : SchedState) : SchedState :=
  { st with
    stage_assignments := addStage st.stage_assignments stage
      ⟨task.id, assigned, stage, task.description⟩
    assigned_actions := dictInsert st.assigned_actions task.id stage
    unassigned := st.unassigned.filter (fun a => ¬ a.id = task.id) }

/-- Argument of the fuelled `schedule_task` recursion: either the body of
`schedule_task(task, desired_stage)`, or the trailing
`for child in children_sorted` loop (with the stage the parent received). -/
inductive SchedJob where
  | task (t : Action) (desired : Nat)
  | kids (cs : List Action) (stage : Nat)
deriving Repr

/-- `schedule_task` of the source, fuelled (`rd` is the reverse-dependency
map `reverse_dependencies.get(·, [])`, `dc` the `dependency_count` map).
`none` means the fuel ran out; `some (.error e)` a Python exception;
`some (.ok st)` normal return with the new planner state. -/
def schedule_task (available_agents : List Agent) (rd : String → List Action)
    (dc : String → Nat) :
    Nat → SchedJob → SchedState → Option (Except PyErr SchedState)
  | 0, _, _ => none
  | fuel + 1, .task task desired, st =>
    match stage_search available_agents st.handler st.stage_assignments
        (fuel + 1) task desired with
    | none => none
    | some (assigned, stage) =>
      let st1 := recordAssignment task assigned stage st
      match update_object_tracking task assigned st1.handler with
      | .error e => some (.error e)
      | .ok h =>
        schedule_task available_agents rd dc fuel
          (.kids (sortDesc (fun a => dc a.id) (rd task.id)) stage)
          { st1 with handler := h }
  | _fuel + 1, .kids [] _, st => some (.ok st)
  | fuel + 1, .kids (child :: rest) stage, st =>
    if st.unassigned.any (fun a => a.id = child.id) ∧
        child.depends_on.all (fun dep => (alookup st.assigned_actions dep).isSome) then
      match schedule_task available_agents rd dc fuel (.task child (stage + 1)) st with
      | none => none
      | some (.error e) => some (.error e)
      | some (.ok st') =>
        schedule_task available_agents rd dc fuel (.kids rest stage) st'
    else schedule_task available_agents rd dc fuel (.kids rest stage) st

/-! ### `plan_parallel_actions` -/

/-- `reverse_dependencies.get(dep, [])`: every action listing `dep` among
its dependencies, once per occurrence, in source iteration order. -/
def reverse_dependencies (actions : List Action) (dep : String) : List Action :=
  actions.flatMap (fun a => (a.depends_on.filter (fun d => d = dep)).map (fun _ => a))

/-- `dependency_count[aid]` (the number of direct dependents). -/
def dependency_count (actions : List Action) (aid : String) : Nat :=
  (reverse_dependencies actions aid).length

/-- The first pass of `plan_parallel_actions`:
`for task in root_tasks_sorted: if task.id in unassigned_actions:
schedule_task(task, 1)`. -/
def run_roots (available_agents : List Agent) (rd : String → List Action)
    (dc : String → Nat) (fuel : Nat) :
    List Action → SchedState → Option (Except PyErr SchedState)
  | [], st => some (.ok st)
  | task :: rest, st =>
    if st.unassigned.any (fun a => a.id = task.id) then
      match schedule_task available_agents rd dc fuel (.task task 1) st with
      | none => none
      | some (.error e) => some (.error e)
      | some (.ok st') => run_roots available_agents rd dc fuel rest st'
    else run_roots available_agents rd dc fuel rest st

/-- `max(assigned_actions[dep] for dep in task.depends_on) + 1` when the
action has dependencies, else `1`; a missing key is Python's `KeyError`. -/
def desiredStage (st : SchedState) (task : Action) : Except PyErr Nat :=
  if task.depends_on.isEmpty then .ok 1
  else
    match task.depends_on.mapM (fun dep => alookup st.assigned_actions dep) with
    | none => .error .keyError
    | some stages => .ok (stages.foldl Nat.max 0 + 1)

/-- The `for task in available_sorted` loop of the fallback pass. -/
def fallback_for (available_agents : List Agent) (rd : String → List Action)
    (dc : String → Nat) (fuel : Nat) :
    List Action → SchedState → Option (Except PyErr SchedState)
  | [], st => some (.ok st)
  | task :: rest, st =>
    if st.unassigned.any (fun a => a.id = task.id) then
      match desiredStage st task with
      | .error e => some (.error e)
      | .ok desired =>
        match schedule_task available_agents rd dc fuel (.task task desired) st with
        | none => none
        | some (.error e) => some (.error e)
        | some (.ok st') => fallback_for available_agents rd dc fuel rest st'
    else fallback_for available_agents rd dc fuel rest st

/-- The actions of the fallback scan whose dependencies are all assigned. -/
def fallback_available (st : SchedState) : List Action :=
  st.unassigned.filter
    (fun a => a.depends_on.all (fun dep => (alookup st.assigned_actions dep).isSome))

/-- The `while unassigned_actions` fallback loop of `plan_parallel_actions`,
fuelled on the number of scans. -/
def fallback (available_agents : List Agent) (rd : String → List Action)
    (dc : String → Nat) :
    Nat → SchedState → Option (Except PyErr SchedState)
  | 0, st => if st.unassigned.isEmpty then some (.ok st) else none
  | fuel + 1, st =>
    if st.unassigned.isEmpty then some (.ok st)
    else
      let available := fallback_available st
      if available.isEmpty then
        some (.error (.unableToSchedule (st.unassigned.map (fun a => a.id))))
      else
        match fallback_for available_agents rd dc (fuel + 1)
            (sortDesc (fun a => dc a.id) available) st with
        | none => none
        | some (.error e) => some (.error e)
        | some (.ok st') => fallback available_agents rd dc fuel st'

/-- `plan_parallel_actions(actions, available_agents)` of the source,
fuelled.  The process-wide `recent_handler` global is passed in explicitly
as `handler0` and the final handler map is returned alongside the
`PlanningResult`. -/
def plan_parallel_actions (fuel : Nat) (actions : List Action)
    (available_agents : List Agent) (handler0 : List (String × Agent)) :
    Option (Except PyErr (PlanningResult × List (String × Agent))) :=
  match validate_dependencies fuel actions with
  | none => none
  | some (.error e) => some (.error e)
  | some (.ok ()) =>
    let rd := reverse_dependencies actions
    let dc := dependency_count actions
    let st0 : SchedState := ⟨[], [], actionDictValues actions, handler0⟩
    let root_tasks := actions.filter (fun a => a.depends_on.isEmpty ∧ a.type = "fetch")
    match run_roots available_agents rd dc fuel
        (sortDesc (fun a => dc a.id) root_tasks) st0 with
    | none => none
    | some (.error e) => some (.error e)
    | some (.ok st1) =>
      match fallback available_agents rd dc fuel st1 with
      | none => none
      | some (.error e) => some (.error e)
      | some (.ok st2) =>
        some (.ok
          (⟨st2.stage_assignments,
            actions.foldl (fun d a => dictInsert d a.id a.depends_on) []⟩,
           st2.handler))

/-! ### Lemmas about the dict model -/

theorem alookup_eq_none {κ α : Type} [DecidableEq κ] {l : List (κ × α)} {k : κ} :
    alookup l k = none ↔ ∀ p ∈ l, p.1 ≠ k := by
  induction l with
  | nil => simp [alookup]
  | cons p rest ih =>
    obtain ⟨k', v⟩ := p
    by_cases h : k' = k <;> simp [alookup, h, ih]

theorem alookup_isSome_iff {κ α : Type} [DecidableEq κ] {l : List (κ × α)} {k : κ} :
    (alookup l k).isSome ↔ ∃ p ∈ l, p.1 = k := by
  rcases h : alookup l k with _ | v
  · simp only [Option.isSome_none, Bool.false_eq_true, false_iff]
    rw [alookup_eq_none] at h
    push_neg
    exact h
  · simp only [Option.isSome_some, true_iff]
    induction l with
    | nil => simp [alookup] at h
    | cons p rest ih =>
      obtain ⟨k', v'⟩ := p
      by_cases hk : k' = k
      · exact ⟨(k', v'), by simp, hk⟩
      · simp only [alookup, hk, if_false] at h
        obtain ⟨q, hq, hq1⟩ := ih h
        exact ⟨q, by simp [hq], hq1⟩

theorem dictInsert_of_fresh {κ α : Type} [DecidableEq κ] {l : List (κ × α)} {k : κ}
    (h : alookup l k = none) (v : α) : dictInsert l k v = l ++ [(k, v)] := by
  rw [alookup_eq_none] at h
  have : l.any (fun p => p.1 = k) = false := by
    simp only [List.any_eq_false, decide_eq_true_eq]
    exact h
  simp [dictInsert, this]

theorem alookup_append {κ α : Type} [DecidableEq κ] (l₁ l₂ : List (κ × α)) (k : κ) :
    alookup (l₁ ++ l₂) k =
      match alookup l₁ k with
      | some v => some v
      | none => alookup l₂ k := by
  induction l₁ with
  | nil => simp [alookup]
  | cons p rest ih =>
    by_cases h : p.1 = k <;> simp [alookup, h, ih]

theorem alookup_insert_fresh_self {κ α : Type} [DecidableEq κ] {l : List (κ × α)} {k : κ}
    (h : alookup l k = none) (v : α) : alookup (dictInsert l k v) k = some v := by
  rw [dictInsert_of_fresh h, alookup_append, h, alookup]
  simp

theorem alookup_insert_fresh_ne {κ α : Type} [DecidableEq κ] {l : List (κ × α)} {k k' : κ}
    (h : alookup l k = none) (hne : k' ≠ k) (v : α) :
    alookup (dictInsert l k v) k' = alookup l k' := by
  rw [dictInsert_of_fresh h, alookup_append]
  rcases h' : alookup l k' with _ | w
  · have : ¬ k = k' := fun hh => hne hh.symm
    simp [alookup, this]
  · rfl

theorem alookup_insert_fresh {κ α : Type} [DecidableEq κ] {l : List (κ × α)} {k k' : κ}
    (h : alookup l k = none) (v : α) :
    alookup (dictInsert l k v) k' = if k = k' then some v else alookup l k' := by
  by_cases hk : k = k'
  · subst hk; simp [alookup_insert_fresh_self h]
  · simp [hk, alookup_insert_fresh_ne h (fun hh => hk hh.symm)]

/-! ### Lemmas about the stable descending sort -/

theorem mem_insertDesc {α : Type} (key : α → Nat) (x a : α) (l : List α) :
    a ∈ insertDesc key x l ↔ a = x ∨ a ∈ l := by
  induction l with
  | nil => simp [insertDesc]
  | cons y ys ih =>
    by_cases h : key y < key x
    · simp [insertDesc, h]
    · simp only [insertDesc, h, if_false, List.mem_cons, ih]
      tauto

theorem mem_sortDesc {α : Type} (key : α → Nat) (a : α) (l : List α) :
    a ∈ sortDesc key l ↔ a ∈ l := by
  suffices h : ∀ acc, a ∈ l.foldl (fun acc x => insertDesc key x acc) acc ↔ a ∈ l ∨ a ∈ acc by
    have := h []
    simpa [sortDesc] using this
  induction l with
  | nil => simp
  | cons y ys ih =>
    intro acc
    simp only [List.foldl_cons, ih, mem_insertDesc, List.mem_cons]
    tauto

/-! ### Lemmas about `preferred_agents`, `schedule_attempt`, `stage_search` -/

theorem preferred_agents_nil (handler : List (String × Agent)) (free pref0 : List Agent) :
    preferred_agents [] handler free pref0 = pref0 := rfl

theorem preferred_agents_cons (o : String) (os : List String)
    (handler : List (String × Agent)) (free pref0 : List Agent) :
    preferred_agents (o :: os) handler free pref0 =
      preferred_agents os handler free
        (match alookup handler o with
         | some agent =>
           if agent ∈ free ∧ ¬ agent ∈ pref0 then pref0 ++ [agent] else pref0
         | none => pref0) := rfl

theorem preferred_agents_cons_none {o : String} {handler : List (String × Agent)}
    (os : List String) (free pref0 : List Agent) (h : alookup handler o = none) :
    preferred_agents (o :: os) handler free pref0 =
      preferred_agents os handler free pref0 := by
  rw [preferred_agents_cons, h]

theorem preferred_agents_cons_some {o : String} {handler : List (String × Agent)}
    {agent : Agent} (os : List String) (free pref0 : List Agent)
    (h : alookup handler o = some agent) :
    preferred_agents (o :: os) handler free pref0 =
      preferred_agents os handler free
        (if agent ∈ free ∧ ¬ agent ∈ pref0 then pref0 ++ [agent] else pref0) := by
  rw [preferred_agents_cons, h]

theorem preferred_agents_subset (objects : List String) (handler : List (String × Agent))
    (free pref0 : List Agent) (h0 : ∀ x ∈ pref0, x ∈ free) :
    ∀ x ∈ preferred_agents objects handler free pref0, x ∈ free := by
  induction objects generalizing pref0 with
  | nil => simpa [preferred_agents_nil] using h0
  | cons o os ih =>
    rcases h : alookup handler o with _ | agent
    · rw [preferred_agents_cons_none os free pref0 h]
      exact ih pref0 h0
    · rw [preferred_agents_cons_some os free pref0 h]
      by_cases hc : agent ∈ free ∧ ¬ agent ∈ pref0
      · rw [if_pos hc]
        refine ih _ (fun x hx => ?_)
        rcases List.mem_append.mp hx with hx | hx
        · exact h0 x hx
        · simp only [List.mem_singleton] at hx
          subst hx
          exact hc.1
      · rw [if_neg hc]
        exact ih pref0 h0

theorem preferred_agents_nodup (objects : List String) (handler : List (String × Agent))
    (free pref0 : List Agent) (h0 : pref0.Nodup) :
    (preferred_agents objects handler free pref0).Nodup := by
  induction objects generalizing pref0 with
  | nil => simpa [preferred_agents_nil] using h0
  | cons o os ih =>
    rcases h : alookup handler o with _ | agent
    · rw [preferred_agents_cons_none os free pref0 h]
      exact ih pref0 h0
    · rw [preferred_agents_cons_some os free pref0 h]
      by_cases hc : agent ∈ free ∧ ¬ agent ∈ pref0
      · rw [if_pos hc]
        refine ih _ ?_
        simp only [List.nodup_append, List.nodup_cons, List.not_mem_nil,
          not_false_iff, List.nodup_nil, and_true, true_and]
        refine ⟨h0, ?_⟩
        intro x hx hx'
        simp only [List.mem_singleton] at hx'
        subst hx'
        exact hc.2 hx
      · rw [if_neg hc]
        exact ih pref0 h0

/-- Each element of a step of the preferred fold extends the accumulator. -/
theorem preferred_agents_extends (objects : List String) (handler : List (String × Agent))
    (free pref0 : List Agent) :
    ∃ extra, preferred_agents objects handler free pref0 = pref0 ++ extra := by
  induction objects generalizing pref0 with
  | nil => exact ⟨[], by simp [preferred_agents_nil]⟩
  | cons o os ih =>
    rcases h : alookup handler o with _ | agent
    · rw [preferred_agents_cons_none os free pref0 h]
      exact ih pref0
    · rw [preferred_agents_cons_some os free pref0 h]
      by_cases hc : agent ∈ free ∧ ¬ agent ∈ pref0
      · rw [if_pos hc]
        obtain ⟨extra, hextra⟩ := ih (pref0 ++ [agent])
        exact ⟨agent :: extra, by simp [hextra]⟩
      · rw [if_neg hc]
        exact ih pref0

/-- Splitting a list by a decidable predicate preserves total length. -/
theorem filter_partition_length {α : Type} (l : List α) (p : α → Prop) [DecidablePred p] :
    (l.filter (fun a => p a)).length + (l.filter (fun a => ¬ p a)).length = l.length := by
  have h := @List.length_eq_length_filter_add _ l (fun a => decide (p a))
  simp only [decide_not] at h ⊢
  omega

/-- A duplicate-free list included in `l` is no longer than `l`. -/
theorem nodup_subset_length_le {α : Type} [DecidableEq α] {l₁ l₂ : List α}
    (h : l₁.Nodup) (hs : l₁ ⊆ l₂) : l₁.length ≤ l₂.length :=
  (h.subperm hs).length_le

/-- The preferred subset computed by one attempt. -/
def attempt_pref (task : Action) (stage : Nat)
    (sa : List (Nat × List ActionAssignment)) (ag : List Agent)
    (h : List (String × Agent)) : List Agent :=
  preferred_agents task.objects h (free_qualified task stage sa ag) []

/-- The `others` fill list computed by one attempt. -/
def attempt_others (task : Action) (stage : Nat)
    (sa : List (Nat × List ActionAssignment)) (ag : List Agent)
    (h : List (String × Agent)) : List Agent :=
  (free_qualified task stage sa ag).filter
    (fun agent => ¬ agent ∈ attempt_pref task stage sa ag h)

theorem schedule_attempt_eq (task : Action) (stage : Nat)
    (sa : List (Nat × List ActionAssignment)) (ag : List Agent)
    (h : List (String × Agent)) :
    schedule_attempt task stage sa ag h =
      if task.reqMin ≤ (attempt_pref task stage sa ag h).length then
        some ((attempt_pref task stage sa ag h).take task.reqMin)
      else if task.reqMin ≤ (attempt_pref task stage sa ag h).length +
          (attempt_others task stage sa ag h).length then
        some (attempt_pref task stage sa ag h ++
          (attempt_others task stage sa ag h).take
            (task.reqMin - (attempt_pref task stage sa ag h).length))
      else none := rfl

theorem attempt_pref_subset (task : Action) (stage : Nat)
    (sa : List (Nat × List ActionAssignment)) (ag : List Agent)
    (h : List (String × Agent)) :
    ∀ x ∈ attempt_pref task stage sa ag h, x ∈ free_qualified task stage sa ag :=
  preferred_agents_subset _ _ _ _ (by simp)

theorem attempt_pref_nodup (task : Action) (stage : Nat)
    (sa : List (Nat × List ActionAssignment)) (ag : List Agent)
    (h : List (String × Agent)) :
    (attempt_pref task stage sa ag h).Nodup :=
  preferred_agents_nodup _ _ _ _ List.nodup_nil

theorem schedule_attempt_some_length {task : Action} {stage : Nat}
    {sa : List (Nat × List ActionAssignment)} {ag : List Agent}
    {h : List (String × Agent)} {l : List Agent}
    (hs : schedule_attempt task stage sa ag h = some l) :
    l.length = task.reqMin := by
  rw [schedule_attempt_eq] at hs
  by_cases h1 : task.reqMin ≤ (attempt_pref task stage sa ag h).length
  · rw [if_pos h1] at hs
    simp only [Option.some.injEq] at hs
    subst hs
    simp only [List.length_take]
    omega
  · rw [if_neg h1] at hs
    by_cases h2 : task.reqMin ≤ (attempt_pref task stage sa ag h).length +
        (attempt_others task stage sa ag h).length
    · rw [if_pos h2] at hs
      simp only [Option.some.injEq] at hs
      subst hs
      simp only [List.length_append, List.length_take]
      omega
    · rw [if_neg h2] at hs
      exact absurd hs (by simp)

theorem schedule_attempt_some_subset {task : Action} {stage : Nat}
    {sa : List (Nat × List ActionAssignment)} {ag : List Agent}
    {h : List (String × Agent)} {l : List Agent}
    (hs : schedule_attempt task stage sa ag h = some l) :
    ∀ x ∈ l, x ∈ free_qualified task stage sa ag := by
  have hpref := attempt_pref_subset task stage sa ag h
  rw [schedule_attempt_eq] at hs
  by_cases h1 : task.reqMin ≤ (attempt_pref task stage sa ag h).length
  · rw [if_pos h1] at hs
    simp only [Option.some.injEq] at hs
    subst hs
    intro x hx
    exact hpref x (List.mem_of_mem_take hx)
  · rw [if_neg h1] at hs
    by_cases h2 : task.reqMin ≤ (attempt_pref task stage sa ag h).length +
        (attempt_others task stage sa ag h).length
    · rw [if_pos h2] at hs
      simp only [Option.some.injEq] at hs
      subst hs
      intro x hx
      rcases List.mem_append.mp hx with hx | hx
      · exact hpref x hx
      · have hx2 := List.mem_of_mem_take hx
        exact (List.mem_filter.mp hx2).1
    · rw [if_neg h2] at hs
      exact absurd hs (by simp)

theorem schedule_attempt_some_nodup {task : Action} {stage : Nat}
    {sa : List (Nat × List ActionAssignment)} {ag : List Agent}
    {h : List (String × Agent)} {l : List Agent}
    (hnd : ag.Nodup)
    (hs : schedule_attempt task stage sa ag h = some l) :
    l.Nodup := by
  have hfree : (free_qualified task stage sa ag).Nodup := (hnd.filter _).filter _
  have hpref := attempt_pref_nodup task stage sa ag h
  rw [schedule_attempt_eq] at hs
  by_cases h1 : task.reqMin ≤ (attempt_pref task stage sa ag h).length
  · rw [if_pos h1] at hs
    simp only [Option.some.injEq] at hs
    subst hs
    exact hpref.sublist (List.take_sublist _ _)
  · rw [if_neg h1] at hs
    by_cases h2 : task.reqMin ≤ (attempt_pref task stage sa ag h).length +
        (attempt_others task stage sa ag h).length
    · rw [if_pos h2] at hs
      simp only [Option.some.injEq] at hs
      subst hs
      rw [List.nodup_append]
      refine ⟨hpref, (hfree.filter _).sublist (List.take_sublist _ _), ?_⟩
      intro x hx hx2
      have hx3 := List.mem_of_mem_take hx2
      have hx4 := (List.mem_filter.mp hx3).2
      simp only [decide_not, Bool.not_eq_true', decide_eq_false_iff_not] at hx4
      exact hx4 hx
    · rw [if_neg h2] at hs
      exact absurd hs (by simp)

/-- A successful attempt implies the minimum can be covered by the
qualified roster agents (dropping the per-stage availability filter). -/
theorem schedule_attempt_some_le {task : Action} {stage : Nat}
    {sa : List (Nat × List ActionAssignment)} {ag : List Agent}
    {h : List (String × Agent)} {l : List Agent}
    (hs : schedule_attempt task stage sa ag h = some l) :
    task.reqMin ≤ (ag.filter (fun agent => can_do_action agent task.type)).length := by
  have hlen : (free_qualified task stage sa ag).length ≤
      (ag.filter (fun agent => can_do_action agent task.type)).length := by
    have h0 : List.Sublist (get_free_agents stage sa ag) ag := by
      simp only [get_free_agents]
      exact List.filter_sublist ag
    exact (h0.filter _).length_le
  have hsub := attempt_pref_subset task stage sa ag h
  have hnd := attempt_pref_nodup task stage sa ag h
  have hpl : (attempt_pref task stage sa ag h).length ≤
      ((free_qualified task stage sa ag).filter
        (fun a => a ∈ attempt_pref task stage sa ag h)).length := by
    refine nodup_subset_length_le hnd (fun x hx => ?_)
    exact List.mem_filter.mpr ⟨hsub x hx, by simpa using hx⟩
  have hsplit := filter_partition_length (free_qualified task stage sa ag)
    (fun a => a ∈ attempt_pref task stage sa ag h)
  have hoth : attempt_others task stage sa ag h =
      (free_qualified task stage sa ag).filter
        (fun a => ¬ a ∈ attempt_pref task stage sa ag h) := rfl
  rw [schedule_attempt_eq] at hs
  by_cases h1 : task.reqMin ≤ (attempt_pref task stage sa ag h).length
  · omega
  · rw [if_neg h1] at hs
    by_cases h2 : task.reqMin ≤ (attempt_pref task stage sa ag h).length +
        (attempt_others task stage sa ag h).length
    · rw [hoth] at h2
      omega
    · rw [if_neg h2] at hs
      exact absurd hs (by simp)

theorem stage_search_some {ag : List Agent} {h : List (String × Agent)}
    {sa : List (Nat × List ActionAssignment)} {fuel : Nat} {task : Action}
    {desired : Nat} {l : List Agent} {s : Nat}
    (hs : stage_search ag h sa fuel task desired = some (l, s)) :
    desired ≤ s ∧ schedule_attempt task s sa ag h = some l := by
  induction fuel generalizing desired with
  | zero => exact absurd hs (by simp [stage_search])
  | succ fuel ih =>
    unfold stage_search at hs
    rcases hatt : schedule_attempt task desired sa ag h with _ | l2
    · rw [hatt] at hs
      obtain ⟨h1, h2⟩ := ih hs
      exact ⟨by omega, h2⟩
    · rw [hatt] at hs
      simp only [Option.some.injEq, Prod.mk.injEq] at hs
      obtain ⟨rfl, rfl⟩ := hs
      exact ⟨le_refl _, hatt⟩

theorem stage_search_min {ag : List Agent} {h : List (String × Agent)}
    {sa : List (Nat × List ActionAssignment)} {fuel : Nat} {task : Action}
    {desired : Nat} {l : List Agent} {s : Nat}
    (hs : stage_search ag h sa fuel task desired = some (l, s)) :
    ∀ t, desired ≤ t → t < s → schedule_attempt task t sa ag h = none := by
  induction fuel generalizing desired with
  | zero => exact absurd hs (by simp [stage_search])
  | succ fuel ih =>
    unfold stage_search at hs
    rcases hatt : schedule_attempt task desired sa ag h with _ | l2
    · rw [hatt] at hs
      intro t h1 h2
      rcases Nat.eq_or_lt_of_le h1 with rfl | h1'
      · exact hatt
      · exact ih hs t h1' h2
    · rw [hatt] at hs
      simp only [Option.some.injEq, Prod.mk.injEq] at hs
      obtain ⟨rfl, rfl⟩ := hs
      intro t h1 h2
      omega

/-- The largest stage number carrying an entry in the stage dict. -/
def maxStage (sa : List (Nat × List ActionAssignment)) : Nat :=
  (sa.map Prod.fst).foldr Nat.max 0

theorem le_maxStage {sa : List (Nat × List ActionAssignment)} {p : Nat × List ActionAssignment}
    (hp : p ∈ sa) : p.1 ≤ maxStage sa := by
  induction sa with
  | nil => cases hp
  | cons q rest ih =>
    rcases List.mem_cons.mp hp with rfl | hp'
    · simp [maxStage, Nat.le_max_left]
    · have h2 := ih hp'
      have h3 : maxStage (q :: rest) = Nat.max q.1 (maxStage rest) := by
        simp [maxStage]
      rw [h3]
      exact le_trans h2 (Nat.le_max_right _ _)

theorem alookup_none_of_maxStage_lt {sa : List (Nat × List ActionAssignment)} {s : Nat}
    (hgt : maxStage sa < s) : alookup sa s = none := by
  rw [alookup_eq_none]
  intro p hp
  have := le_maxStage hp
  omega

/-- At a stage with no recorded assignment, every roster agent is free. -/
theorem get_free_agents_of_empty {stage : Nat}
    {sa : List (Nat × List ActionAssignment)} (ag : List Agent)
    (hempty : (alookup sa stage).getD [] = []) :
    get_free_agents stage sa ag = ag := by
  simp [get_free_agents, used_ids, hempty]

/-- At an empty stage, a capacity-satisfiable action is always assignable:
the qualified free agents are exactly the qualified roster agents. -/
theorem schedule_attempt_of_empty_stage {task : Action} {stage : Nat}
    {sa : List (Nat × List ActionAssignment)} {ag : List Agent}
    {h : List (String × Agent)}
    (hnd : ag.Nodup)
    (hcap : task.reqMin ≤ (ag.filter (fun agent => can_do_action agent task.type)).length)
    (hempty : (alookup sa stage).getD [] = []) :
    ∃ l, schedule_attempt task stage sa ag h = some l := by
  have hfree : free_qualified task stage sa ag =
      ag.filter (fun agent => can_do_action agent task.type) := by
    unfold free_qualified
    rw [get_free_agents_of_empty ag hempty]
  have hfnd : (free_qualified task stage sa ag).Nodup := (hnd.filter _).filter _
  have hsub := attempt_pref_subset task stage sa ag h
  have hpnd := attempt_pref_nodup task stage sa ag h
  have h1 : (attempt_pref task stage sa ag h).length ≤
      ((free_qualified task stage sa ag).filter
        (fun a => a ∈ attempt_pref task stage sa ag h)).length := by
    refine nodup_subset_length_le hpnd (fun x hx => ?_)
    exact List.mem_filter.mpr ⟨hsub x hx, by simpa using hx⟩
  have h2 : ((free_qualified task stage sa ag).filter
      (fun a => a ∈ attempt_pref task stage sa ag h)).length ≤
      (attempt_pref task stage sa ag h).length := by
    refine nodup_subset_length_le (hfnd.filter _) (fun x hx => ?_)
    have := (List.mem_filter.mp hx).2
    simpa using this
  have hsplit := filter_partition_length (free_qualified task stage sa ag)
    (fun a => a ∈ attempt_pref task stage sa ag h)
  have hoth : attempt_others task stage sa ag h =
      (free_qualified task stage sa ag).filter
        (fun a => ¬ a ∈ attempt_pref task stage sa ag h) := rfl
  rw [schedule_attempt_eq]
  by_cases hb : task.reqMin ≤ (attempt_pref task stage sa ag h).length
  · rw [if_pos hb]
    exact ⟨_, rfl⟩
  · rw [if_neg hb]
    have hcap' : task.reqMin ≤ (free_qualified task stage sa ag).length := by
      rw [hfree]; exact hcap
    rw [if_pos (by rw [hoth]; omega)]
    exact ⟨_, rfl⟩

/-- The stage search succeeds for a capacity-satisfiable action, with
enough fuel, at the latest at the first stage past every recorded one. -/
theorem stage_search_succeeds {task : Action} {ag : List Agent}
    {h : List (String × Agent)} {sa : List (Nat × List ActionAssignment)}
    (hnd : ag.Nodup)
    (hcap : task.reqMin ≤ (ag.filter (fun agent => can_do_action agent task.type)).length) :
    ∀ k desired, maxStage sa + 1 - desired ≤ k →
      ∃ fuel l s, stage_search ag h sa fuel task desired = some (l, s) := by
  intro k
  induction k with
  | zero =>
    intro desired hk
    have hgt : maxStage sa < desired := by omega
    obtain ⟨l, hl⟩ := @schedule_attempt_of_empty_stage task desired sa ag h hnd hcap
      (by rw [alookup_none_of_maxStage_lt hgt]; rfl)
    exact ⟨1, l, desired, by simp [stage_search, hl]⟩
  | succ k ih =>
    intro desired hk
    rcases hatt : schedule_attempt task desired sa ag h with _ | l
    · by_cases hgt : maxStage sa < desired
      · obtain ⟨l, hl⟩ := @schedule_attempt_of_empty_stage task desired sa ag h hnd hcap
          (by rw [alookup_none_of_maxStage_lt hgt]; rfl)
        rw [hl] at hatt
        cases hatt
      · obtain ⟨fuel, l, s, hsearch⟩ := ih (desired + 1) (by omega)
        refine ⟨fuel + 1, l, s, ?_⟩
        unfold stage_search
        rw [hatt]
        exact hsearch
    · exact ⟨1, l, desired, by simp [stage_search, hatt]⟩

theorem preferred_agents_append (os1 os2 : List String)
    (handler : List (String × Agent)) (free pref0 : List Agent) :
    preferred_agents (os1 ++ os2) handler free pref0 =
      preferred_agents os2 handler free (preferred_agents os1 handler free pref0) := by
  simp [preferred_agents, List.foldl_append]

theorem preferred_agents_head (objects : List String) (handler : List (String × Agent))
    (free pref0 : List Agent) (h0 : pref0 ≠ []) :
    (preferred_agents objects handler free pref0).head? = pref0.head? := by
  obtain ⟨extra, he⟩ := preferred_agents_extends objects handler free pref0
  rw [he]
  cases pref0 with
  | nil => exact absurd rfl h0
  | cons a t => rfl

theorem preferred_agents_singleton {X : Agent} (objects : List String)
    (handler : List (String × Agent)) (free pref0 : List Agent)
    (hobj : ∀ obj ∈ objects, ∀ Y, alookup handler obj = some Y → Y ∈ free → Y = X)
    (h0 : pref0 = [] ∨ pref0 = [X]) :
    preferred_agents objects handler free pref0 = [] ∨
      preferred_agents objects handler free pref0 = [X] := by
  induction objects generalizing pref0 with
  | nil => simpa [preferred_agents_nil] using h0
  | cons o os ih =>
    rcases h : alookup handler o with _ | Y
    · rw [preferred_agents_cons_none os free pref0 h]
      exact ih _ (fun obj ho => hobj obj (List.mem_cons_of_mem _ ho)) h0
    · rw [preferred_agents_cons_some os free pref0 h]
      by_cases hc : Y ∈ free ∧ ¬ Y ∈ pref0
      · rw [if_pos hc]
        have hYX : Y = X := hobj o (List.mem_cons_self _ _) Y h hc.1
        subst hYX
        rcases h0 with rfl | rfl
        · exact ih _ (fun obj ho => hobj obj (List.mem_cons_of_mem _ ho)) (Or.inr (by simp))
        · exact absurd (by simp : Y ∈ [Y]) hc.2
      · rw [if_neg hc]
        exact ih _ (fun obj ho => hobj obj (List.mem_cons_of_mem _ ho)) h0

/-! ### Loop-level claim theorems (C6, C7, C10) -/

/-- C6 (amended): in a planning run, when a one-agent action is placed at
stage `s` by the stage-search loop, and `X` is the recorded recent handler
of one of the action's objects `O`, `X` is qualified and free at `s`, and no
object listed before `O` in the action's declared object order has a
recorded recent handler other than `X` that is also qualified and free at
`s`, then the agent chosen is exactly `X`.  (The affinity preference walks
the objects in declared order, so an earlier object's free handler wins.) -/
theorem claim_C6_amended {task : Action} {ag : List Agent}
    {handler : List (String × Agent)} {sa : List (Nat × List ActionAssignment)}
    {fuel desired : Nat} {l : List Agent} {s : Nat}
    {pre suf : List String} {O : String} {X : Agent}
    (hreq : task.reqMin = 1)
    (hobj : task.objects = pre ++ O :: suf)
    (hX : alookup handler O = some X)
    (hsearch : stage_search ag handler sa fuel task desired = some (l, s))
    (hfree : X ∈ free_qualified task s sa ag)
    (hpre : ∀ obj ∈ pre, ∀ Y, alookup handler obj = some Y →
      Y ∈ free_qualified task s sa ag → Y = X) :
    l = [X] := by
  obtain ⟨-, hatt⟩ := stage_search_some hsearch
  have hacc := preferred_agents_singleton pre handler (free_qualified task s sa ag) []
    hpre (Or.inl rfl)
  have hO : preferred_agents (O :: suf) handler (free_qualified task s sa ag)
      (preferred_agents pre handler (free_qualified task s sa ag) []) =
      preferred_agents suf handler (free_qualified task s sa ag) [X] := by
    rcases hacc with hacc | hacc <;> rw [preferred_agents_cons_some suf _ _ hX, hacc]
    · rw [if_pos ⟨hfree, by simp⟩]
      rfl
    · rw [if_neg (by simp)]
  have hprefX : (attempt_pref task s sa ag handler).head? = some X := by
    unfold attempt_pref
    rw [hobj, preferred_agents_append, hO,
      preferred_agents_head suf handler _ [X] (by simp)]
    rfl
  obtain ⟨t, hteq⟩ : ∃ t, attempt_pref task s sa ag handler = X :: t := by
    rcases hp : attempt_pref task s sa ag handler with _ | ⟨a, t⟩
    · rw [hp] at hprefX
      cases hprefX
    · rw [hp] at hprefX
      simp only [List.head?_cons, Option.some.injEq] at hprefX
      exact ⟨t, by rw [hprefX]⟩
  rw [schedule_attempt_eq] at hatt
  rw [if_pos (by rw [hteq, hreq]; simp)] at hatt
  simp only [Option.some.injEq] at hatt
  rw [← hatt, hteq, hreq]
  rfl

/-- C7 (amended): when the minimum agent requirement exceeds the number of
qualified roster agents (in particular when the minimum is positive and
every roster agent's constraints disallow the action type), the stage-search
loop of `schedule_task` fails at every candidate stage and never
terminates: it returns `none` for every fuel bound. -/
theorem claim_C7_amended {task : Action} {ag : List Agent}
    (hcap : (ag.filter (fun agent => can_do_action agent task.type)).length < task.reqMin) :
    ∀ fuel (handler : List (String × Agent)) (sa : List (Nat × List ActionAssignment))
      (desired : Nat), stage_search ag handler sa fuel task desired = none := by
  intro fuel handler sa
  induction fuel with
  | zero => intro desired; rfl
  | succ fuel ih =>
    intro desired
    unfold stage_search
    rcases hatt : schedule_attempt task desired sa ag handler with _ | l
    · exact ih (desired + 1)
    · have := schedule_attempt_some_le hatt
      omega

/-- C10: for an action whose minimum requirement is covered by the
qualified roster agents (with distinct agent identifiers, per the data
model), the stage-search loop terminates from any starting stage and any
assignment state: with enough fuel it succeeds no later than the first
candidate stage that carries no recorded assignment, and the recorded agent
list has exactly the minimum length. -/
theorem claim_C10_search_terminates {task : Action} {ag : List Agent}
    (hN : (ag.map (fun a => a.id)).Nodup)
    (hcap : task.reqMin ≤ (ag.filter (fun agent => can_do_action agent task.type)).length) :
    ∀ (sa : List (Nat × List ActionAssignment)) (handler : List (String × Agent))
      (desired : Nat), ∃ fuel l s,
      stage_search ag handler sa fuel task desired = some (l, s) ∧
      (∀ e, desired ≤ e → (alookup sa e).getD [] = [] → s ≤ e) ∧
      l.length = task.reqMin := by
  intro sa handler desired
  have hnd : ag.Nodup := hN.of_map
  obtain ⟨fuel, l, s, hsearch⟩ :=
    @stage_search_succeeds task ag handler sa hnd hcap (maxStage sa + 1) desired (by omega)
  refine ⟨fuel, l, s, hsearch, ?_, schedule_attempt_some_length (stage_search_some hsearch).2⟩
  intro e he hempty
  by_contra hlt
  push_neg at hlt
  have hnone := stage_search_min hsearch e he hlt
  obtain ⟨l2, hl2⟩ := @schedule_attempt_of_empty_stage task e sa ag handler hnd hcap hempty
  rw [hl2] at hnone
  cases hnone

/-! ### Result extractors for concrete runs -/

/-- The `PlanningResult` of a finished, non-raising planning run. -/
def resultOf (o : Option (Except PyErr (PlanningResult × List (String × Agent)))) :
    Option PlanningResult :=
  match o with
  | some (.ok (r, _)) => some r
  | _ => none

/-- The first assignment recorded for an action id, scanning stages in
insertion order. -/
def findAssignment (r : PlanningResult) (aid : String) : Option ActionAssignment :=
  (r.stages.flatMap (fun p => p.2)).find? (fun asg => asg.action_id = aid)

/-- The stage at which an action was placed in a result. -/
def assignedStage (r : PlanningResult) (aid : String) : Option Nat :=
  (findAssignment r aid).map (fun asg => asg.stage)

/-- The agent ids assigned to an action in a result. -/
def assignedAgentIds (r : PlanningResult) (aid : String) : Option (List String) :=
  (findAssignment r aid).map (fun asg => asg.assigned_agents.map (fun ag => ag.id))

/-- Within each stage of the result, the agent-id lists of distinct
assignments are pairwise disjoint. -/
def stages_agents_disjoint (r : PlanningResult) : Prop :=
  ∀ p ∈ r.stages, List.Pairwise
    (fun a1 a2 => ∀ i ∈ a1.assigned_agents.map (fun x => x.id),
      ¬ i ∈ a2.assigned_agents.map (fun x => x.id)) p.2

/-! ### Concrete scenarios -/

/-- Unconstrained demo agents. -/
def agA : Agent := ⟨"A", []⟩

def agB : Agent := ⟨"B", []⟩

def agC : Agent := ⟨"C", []⟩

/-- The three unconstrained agents of the `__main__` chair-assembly demo. -/
def chairAgents : List Agent := [agA, agB, agC]

/-- The eleven actions of the `__main__` chair-assembly demo, verbatim. -/
def chairActions : List Action :=
  [ ⟨"1", "fetch", ["chair_back"], "Fetch chair back", 1, 1, [], []⟩,
    ⟨"2", "fetch", ["chair_seat"], "Fetch chair seat", 1, 1, [], []⟩,
    ⟨"3", "fetch", ["leg1"], "Fetch leg 1", 1, 1, [], []⟩,
    ⟨"4", "fetch", ["leg2"], "Fetch leg 2", 1, 1, [], []⟩,
    ⟨"5", "fetch", ["leg3"], "Fetch leg 3", 1, 1, [], []⟩,
    ⟨"6", "fetch", ["leg4"], "Fetch leg 4", 1, 1, [], []⟩,
    ⟨"7", "attach", ["chair_back", "chair_seat"],
      "Attach chair back and chair seat together", 1, 1, ["1", "2"], []⟩,
    ⟨"8", "attach", ["leg1", "chair_seat"], "Attach leg 1 to chair seat",
      1, 1, ["3", "7"], []⟩,
    ⟨"9", "attach", ["leg2", "chair_seat"], "Attach leg 2 to chair seat",
      1, 1, ["4", "7"], []⟩,
    ⟨"10", "attach", ["leg3", "chair_seat"], "Attach leg 3 to chair seat",
      1, 1, ["5", "7"], []⟩,
    ⟨"11", "attach", ["leg4", "chair_seat"], "Attach leg 4 to chair seat",
      1, 1, ["6", "7"], []⟩ ]

/-- The chair-assembly demo run, from a fresh process (empty handler map). -/
def chairRun : Option PlanningResult :=
  resultOf (plan_parallel_actions 40 chairActions chairAgents [])

/-- A four-action input refuting the strict dependency-stage claim: `r1` and
`r2` are fetch roots, `c1` needs two agents and depends on `r1`, and `c2`
depends on both `c1` and `r2`.  The cascade from `r2` schedules `c2` with
desired stage `stage(r2) + 1 = 2`, landing it beside its dependency `c1`. -/
def c1cexActions : List Action :=
  [ ⟨"r1", "fetch", ["o1"], "fetch o1", 1, 1, [], []⟩,
    ⟨"r2", "fetch", ["o2"], "fetch o2", 1, 1, [], []⟩,
    ⟨"c1", "attach", ["o3"], "big attach", 2, 2, ["r1"], []⟩,
    ⟨"c2", "attach", ["o4"], "late attach", 1, 1, ["c1", "r2"], []⟩ ]

def c1cexRun : Option PlanningResult :=
  resultOf (plan_parallel_actions 40 c1cexActions chairAgents [])

/-- Two fetches feeding one attach that touches both objects: the affinity
preference walks the objects in declared order, so the handler of `o1`
(agent `A`) wins over the handler of `o2` (agent `B`). -/
def c6Attach : Action := ⟨"g", "attach", ["o1", "o2"], "attach both", 1, 1, ["f1", "f2"], []⟩

def c6Actions : List Action :=
  [ ⟨"f1", "fetch", ["o1"], "fetch o1", 1, 1, [], []⟩,
    ⟨"f2", "fetch", ["o2"], "fetch o2", 1, 1, [], []⟩,
    c6Attach ]

def c6Agents : List Agent := [agA, agB]

def c6Run : Option PlanningResult :=
  resultOf (plan_parallel_actions 40 c6Actions c6Agents [])

/-- The planner state components at the moment action `g` of the affinity
scenario is attempted: both fetches are recorded at stage 1 and the handler
map records `o1 ↦ A`, `o2 ↦ B`. -/
def c6MidStages : List (Nat × List ActionAssignment) :=
  [(1, [⟨"f1", [agA], 1, "fetch o1"⟩, ⟨"f2", [agB], 1, "fetch o2"⟩])]

def c6MidHandler : List (String × Agent) := [("o1", agA), ("o2", agB)]

/-- A roster whose only agent is barred from attaching. -/
def c7Agents : List Agent := [⟨"D", ["can't_attach"]⟩]

/-- An attach action with minimum requirement `0`: unsatisfiable roster, yet
the stage search succeeds immediately with the empty agent list. -/
def c7Task : Action := ⟨"t0", "attach", ["x"], "impossible attach", 0, 0, [], []⟩

/-- First call of the handler-persistence scenario: two fetches. -/
def c8ActsFirst : List Action :=
  [ ⟨"f1", "fetch", ["o2"], "fetch o2", 1, 1, [], []⟩,
    ⟨"f2", "fetch", ["o1"], "fetch o1", 1, 1, [], []⟩ ]

/-- Second call of the handler-persistence scenario: fresh input, one
attach touching `o1`. -/
def c8ActsSecond : List Action :=
  [ ⟨"g", "attach", ["o1"], "attach o1", 1, 1, [], []⟩ ]

def c8Agents : List Agent := [agB, agA]

/-- The handler map left behind by the first call. -/
def c8Leftover : List (String × Agent) := [("o2", agB), ("o1", agA)]

/-- The full result of the chair-assembly run, as the planner computes it
from a fresh process. -/
def chairExpected : PlanningResult :=
  ⟨[ (1, [⟨"1", [agA], 1, "Fetch chair back"⟩,
          ⟨"2", [agB], 1, "Fetch chair seat"⟩,
          ⟨"3", [agC], 1, "Fetch leg 1"⟩]),
     (2, [⟨"7", [agA], 2, "Attach chair back and chair seat together"⟩,
          ⟨"8", [agC], 2, "Attach leg 1 to chair seat"⟩,
          ⟨"4", [agB], 2, "Fetch leg 2"⟩]),
     (3, [⟨"9", [agB], 3, "Attach leg 2 to chair seat"⟩,
          ⟨"5", [agA], 3, "Fetch leg 3"⟩,
          ⟨"6", [agC], 3, "Fetch leg 4"⟩]),
     (4, [⟨"10", [agA], 4, "Attach leg 3 to chair seat"⟩,
          ⟨"11", [agC], 4, "Attach leg 4 to chair seat"⟩]) ],
   [("1", []), ("2", []), ("3", []), ("4", []), ("5", []), ("6", []),
    ("7", ["1", "2"]), ("8", ["3", "7"]), ("9", ["4", "7"]),
    ("10", ["5", "7"]), ("11", ["6", "7"])]⟩

/-- The handler map left by the chair-assembly run. -/
def chairHandlerFinal : List (String × Agent) :=
  [("chair_back", agA), ("chair_seat", agC), ("leg1", agC),
   ("leg2", agB), ("leg3", agA), ("leg4", agC)]

set_option maxRecDepth 100000

/-- C2 (counterexample): on the chair-assembly input the plan does NOT place
all six fetch actions in stage 1 — fetch action `4` is placed at stage 2,
because an agent committed to an assignment in a stage is not freed again
within that same stage, so only three fetches fit into stage 1. -/
theorem claim_C2_counterexample :
    chairRun.bind (fun r => assignedStage r "4") = some 2 ∧ (2 : Nat) ≠ 1 :=
  ⟨by decide, by decide⟩

/-- C2 (amended): on the chair-assembly input (six dependency-free fetches,
five attaches, three unconstrained agents) the plan places fetches `1`,`2`,
`3` in stage 1, fetch `4` in stage 2 and fetches `5`,`6` in stage 3 (only
three fetches fit each stage); the back/seat attach `7` is placed at stage
2, hence no earlier than 2; and no two assignments in the same stage share
an agent.  The whole returned result is pinned exactly. -/
theorem claim_C2_amended :
    plan_parallel_actions 40 chairActions chairAgents [] =
      some (.ok (chairExpected, chairHandlerFinal)) ∧
    assignedStage chairExpected "1" = some 1 ∧
    assignedStage chairExpected "2" = some 1 ∧
    assignedStage chairExpected "3" = some 1 ∧
    assignedStage chairExpected "4" = some 2 ∧
    assignedStage chairExpected "5" = some 3 ∧
    assignedStage chairExpected "6" = some 3 ∧
    assignedStage chairExpected "7" = some 2 ∧
    stages_agents_disjoint chairExpected := by
  refine ⟨rfl, by decide, by decide, by decide, by decide, by decide,
    by decide, by decide, ?_⟩
  intro p hp
  fin_cases hp <;> decide

/-- C1 (counterexample): a run in which an assignment's stage is NOT
strictly greater than the stage of each of its dependencies: on
`c1cexActions`, action `c2` is placed at stage 2 while its dependency `c1`
is also at stage 2. -/
theorem claim_C1_counterexample :
    "c1" ∈ depsOf c1cexActions "c2" ∧
    c1cexRun.bind (fun r => assignedStage r "c2") = some 2 ∧
    c1cexRun.bind (fun r => assignedStage r "c1") = some 2 ∧
    ¬ (2 : Nat) > 2 :=
  ⟨by decide, by decide, by decide, by decide⟩

/-- C6 (counterexample): agent `B` fetched `o2`; the later one-agent attach
`g` touches `o2` and `B` is qualified and free at stage 2, where `g` is
placed — yet the planner chooses agent `A` (the handler of `o1`, the
earlier object in `g`'s declared object order), not `B`. -/
theorem claim_C6_counterexample :
    c6Run.bind (fun r => assignedAgentIds r "f2") = some ["B"] ∧
    c6Run.bind (fun r => assignedAgentIds r "g") = some ["A"] ∧
    "o2" ∈ c6Attach.objects ∧
    c6Attach.reqMin = 1 ∧
    alookup c6MidHandler "o2" = some agB ∧
    agB ∈ free_qualified c6Attach 2 c6MidStages c6Agents ∧
    schedule_attempt c6Attach 2 c6MidStages c6Agents c6MidHandler = some [agA] ∧
    agA ≠ agB :=
  ⟨by decide, by decide, by decide, by decide, by decide, by decide,
   by decide, by decide⟩

/-- C7 (counterexample): an action every roster agent is barred from, but
with minimum requirement `0`: the stage-search loop terminates at once,
assigning the empty agent list — so "never terminates" does not hold for
every unsatisfiable-roster action. -/
theorem claim_C7_counterexample :
    (∀ a ∈ c7Agents, ¬ can_do_action a c7Task.type) ∧
    stage_search c7Agents [] [] 1 c7Task 1 = some ([], 1) :=
  ⟨by decide, by decide⟩

/-- The result of the first handler-persistence call. -/
def c8FirstResult : PlanningResult :=
  ⟨[(1, [⟨"f1", [agB], 1, "fetch o2"⟩, ⟨"f2", [agA], 1, "fetch o1"⟩])],
   [("f1", []), ("f2", [])]⟩

/-- C8: the handler map (the `recent_handler` module global, modelled here
by explicit state passing) is not reset by `plan_parallel_actions`: the
first call returns with the entries its fetch assignments wrote (`o1 ↦ A`),
and a second call on fresh input read with that leftover map assigns agent
`A` to the attach touching `o1`, while the same call from a fresh process
(empty map) assigns agent `B` — the two outputs differ. -/
theorem claim_C8_handler_persistence :
    plan_parallel_actions 40 c8ActsFirst c8Agents [] =
      some (.ok (c8FirstResult, c8Leftover)) ∧
    alookup c8Leftover "o1" = some agA ∧
    (resultOf (plan_parallel_actions 40 c8ActsSecond c8Agents c8Leftover)).bind
      (fun r => assignedAgentIds r "g") = some ["A"] ∧
    (resultOf (plan_parallel_actions 40 c8ActsSecond c8Agents [])).bind
      (fun r => assignedAgentIds r "g") = some ["B"] ∧
    plan_parallel_actions 40 c8ActsSecond c8Agents c8Leftover ≠
      plan_parallel_actions 40 c8ActsSecond c8Agents [] := by
  refine ⟨rfl, by decide, by decide, by decide, ?_⟩
  intro h
  have h2 : (resultOf (plan_parallel_actions 40 c8ActsSecond c8Agents c8Leftover)).bind
      (fun r => assignedAgentIds r "g") =
      (resultOf (plan_parallel_actions 40 c8ActsSecond c8Agents [])).bind
      (fun r => assignedAgentIds r "g") := by rw [h]
  exact absurd h2 (by decide)

/-- An attach action with minimum requirement `1`, for the infeasible-roster
instances. -/
def c7Task1 : Action := ⟨"t1", "attach", ["x"], "impossible attach", 1, 1, [], []⟩

/-- Witness for the amended C6 theorem at a concrete instance: the attach of
the affinity scenario, placed at stage 2, with `X = A` the handler of its
first object. -/
theorem claim_C6_amended_witness :
    (c6Attach.reqMin = 1 ∧
     c6Attach.objects = [] ++ "o1" :: ["o2"] ∧
     alookup c6MidHandler "o1" = some agA ∧
     stage_search c6Agents c6MidHandler c6MidStages 5 c6Attach 2 = some ([agA], 2) ∧
     agA ∈ free_qualified c6Attach 2 c6MidStages c6Agents) ∧
    ([agA] : List Agent) = [agA] :=
  ⟨⟨by decide, by decide, by decide, by decide, by decide⟩,
   @claim_C6_amended c6Attach c6Agents c6MidHandler c6MidStages 5 2 [agA] 2
     [] ["o2"] "o1" agA (by decide) (by decide) (by decide) (by decide) (by decide)
     (fun obj ho => absurd ho (List.not_mem_nil obj))⟩

/-- Witness for the amended C7 theorem: one agent barred from attaching,
an attach requiring one agent — the search returns `none` at fuel 7. -/
theorem claim_C7_amended_witness :
    (c7Agents.filter (fun agent => can_do_action agent c7Task1.type)).length <
      c7Task1.reqMin ∧
    stage_search c7Agents [] [] 7 c7Task1 1 = none :=
  ⟨by decide, @claim_C7_amended c7Task1 c7Agents (by decide) 7 [] [] 1⟩

/-- Witness for the C10 theorem: a one-agent roster and a one-agent attach
on the empty state. -/
theorem claim_C10_search_terminates_witness :
    ((([agA] : List Agent).map (fun a => a.id)).Nodup ∧
     c6Attach.reqMin ≤ (([agA] : List Agent).filter
       (fun agent => can_do_action agent c6Attach.type)).length) ∧
    (∃ fuel l s, stage_search [agA] [] [] fuel c6Attach 1 = some (l, s) ∧
      (∀ e, 1 ≤ e → (alookup ([] : List (Nat × List ActionAssignment)) e).getD [] = [] →
        s ≤ e) ∧
      l.length = c6Attach.reqMin) :=
  ⟨⟨by decide, by decide⟩,
   @claim_C10_search_terminates c6Attach [agA] (by decide) (by decide) [] [] 1⟩

/-! ### Further dictionary lemmas -/

theorem mem_dictInsert {κ α : Type} [DecidableEq κ] {l : List (κ × α)} {k : κ} {v : α}
    {p : κ × α} (hp : p ∈ dictInsert l k v) : p ∈ l ∨ p = (k, v) := by
  unfold dictInsert at hp
  split at hp
  · rcases List.mem_map.mp hp with ⟨q, hq, hq2⟩
    by_cases h : q.1 = k
    · right
      rw [← hq2, if_pos h]
    · left
      rw [← hq2, if_neg h]
      exact hq
  · rcases List.mem_append.mp hp with h | h
    · exact Or.inl h
    · right
      simpa using h

theorem dictInsert_keys {κ α : Type} [DecidableEq κ] {l : List (κ × α)} {k : κ} {v : α}
    {i : κ} : (∃ p ∈ dictInsert l k v, p.1 = i) ↔ (∃ p ∈ l, p.1 = i) ∨ i = k := by
  unfold dictInsert
  by_cases hmem : l.any (fun p => p.1 = k)
  · rw [if_pos hmem]
    simp only [List.any_eq_true, decide_eq_true_eq] at hmem
    obtain ⟨q0, hq0, hq0k⟩ := hmem
    constructor
    · rintro ⟨p, hp, hpi⟩
      rcases List.mem_map.mp hp with ⟨q, hq, hq2⟩
      by_cases h : q.1 = k
      · rw [← hq2, if_pos h] at hpi
        exact Or.inr hpi.symm
      · rw [← hq2, if_neg h] at hpi
        exact Or.inl ⟨q, hq, hpi⟩
    · rintro (⟨p, hp, hpi⟩ | hik)
      · by_cases h : p.1 = k
        · refine ⟨(k, v), List.mem_map.mpr ⟨p, hp, by rw [if_pos h]⟩, ?_⟩
          rw [← hpi, h]
        · exact ⟨p, List.mem_map.mpr ⟨p, hp, by rw [if_neg h]⟩, hpi⟩
      · subst hik
        exact ⟨(i, v), List.mem_map.mpr ⟨q0, hq0, by rw [if_pos hq0k]⟩, rfl⟩
  · rw [if_neg hmem]
    constructor
    · rintro ⟨p, hp, hpi⟩
      rcases List.mem_append.mp hp with h | h
      · exact Or.inl ⟨p, h, hpi⟩
      · simp only [List.mem_singleton] at h
        subst h
        exact Or.inr hpi.symm
    · rintro (⟨p, hp, hpi⟩ | hik)
      · exact ⟨p, List.mem_append.mpr (Or.inl hp), hpi⟩
      · subst hik
        exact ⟨(i, v), List.mem_append.mpr (Or.inr (by simp)), rfl⟩

/-! ### Lemmas about `actionDict` -/

theorem dict_foldl_entry {actions0 : List Action} :
    ∀ (l : List Action) (acc : List (String × Action)),
    (∀ p ∈ acc, p.1 = p.2.id ∧ p.2 ∈ actions0) → (∀ a ∈ l, a ∈ actions0) →
    ∀ p ∈ l.foldl (fun d a => dictInsert d a.id a) acc, p.1 = p.2.id ∧ p.2 ∈ actions0 := by
  intro l
  induction l with
  | nil => intro acc hacc _ p hp; exact hacc p hp
  | cons a rest ih =>
    intro acc hacc hl p hp
    refine ih (dictInsert acc a.id a) ?_ (fun b hb => hl b (List.mem_cons_of_mem _ hb)) p hp
    intro q hq
    rcases mem_dictInsert hq with h | rfl
    · exact hacc q h
    · exact ⟨rfl, hl a (List.mem_cons_self _ _)⟩

theorem dict_foldl_keys :
    ∀ (l : List Action) (acc : List (String × Action)) (i : String),
    ((∃ p ∈ l.foldl (fun d a => dictInsert d a.id a) acc, p.1 = i) ↔
      (∃ p ∈ acc, p.1 = i) ∨ i ∈ l.map (fun a => a.id)) := by
  intro l
  induction l with
  | nil => intro acc i; simp
  | cons a rest ih =>
    intro acc i
    simp only [List.foldl_cons, ih, dictInsert_keys, List.map_cons, List.mem_cons]
    exact or_assoc

theorem actionDict_entry {actions : List Action} :
    ∀ p ∈ actionDict actions, p.1 = p.2.id ∧ p.2 ∈ actions :=
  dict_foldl_entry actions [] (by simp) (fun _ h => h)

theorem actionDict_keys {actions : List Action} {i : String} :
    (∃ p ∈ actionDict actions, p.1 = i) ↔ i ∈ actions.map (fun a => a.id) := by
  have := dict_foldl_keys actions [] i
  simpa [actionDict] using this

theorem actionDictValues_sub {actions : List Action} {a : Action}
    (ha : a ∈ actionDictValues actions) : a ∈ actions := by
  rcases List.mem_map.mp ha with ⟨p, hp, rfl⟩
  exact (actionDict_entry p hp).2

theorem actionDictValues_id_mem {actions : List Action} {a : Action}
    (ha : a ∈ actionDictValues actions) : a.id ∈ actions.map (fun x => x.id) :=
  List.mem_map.mpr ⟨a, actionDictValues_sub ha, rfl⟩

theorem exists_value_of_id {actions : List Action} {i : String}
    (hi : i ∈ actions.map (fun a => a.id)) :
    ∃ a ∈ actionDictValues actions, a.id = i := by
  obtain ⟨p, hp, hpi⟩ := actionDict_keys.mpr hi
  exact ⟨p.2, List.mem_map.mpr ⟨p, hp, rfl⟩, by rw [← (actionDict_entry p hp).1, hpi]⟩

theorem dict_foldl_of_nodup :
    ∀ (l : List Action) (acc : List (String × Action)),
    (∀ a ∈ l, alookup acc a.id = none) → (l.map (fun a => a.id)).Nodup →
    l.foldl (fun d a => dictInsert d a.id a) acc = acc ++ l.map (fun a => (a.id, a)) := by
  intro l
  induction l with
  | nil => intro acc _ _; simp
  | cons a rest ih =>
    intro acc hacc hN
    simp only [List.map_cons, List.nodup_cons] at hN
    have hfresh : alookup acc a.id = none := hacc a (List.mem_cons_self _ _)
    simp only [List.foldl_cons, dictInsert_of_fresh hfresh]
    rw [ih (acc ++ [(a.id, a)]) ?_ hN.2]
    · simp
    · intro b hb
      rw [alookup_append, hacc b (List.mem_cons_of_mem _ hb)]
      have hne : ¬ a.id = b.id := by
        intro he
        exact hN.1 (by rw [he]; exact List.mem_map.mpr ⟨b, hb, rfl⟩)
      have hne2 : ¬ b.id = a.id := fun h2 => hne h2.symm
      simp [alookup, hne]

theorem actionDictValues_of_nodup {actions : List Action}
    (hN : (actions.map (fun a => a.id)).Nodup) : actionDictValues actions = actions := by
  unfold actionDictValues actionDict
  rw [dict_foldl_of_nodup actions [] (fun a _ => rfl) hN]
  simp only [List.nil_append, List.map_map]
  have h2 : (Prod.snd ∘ fun a : Action => (a.id, a)) = id := rfl
  rw [h2, List.map_id]

/-! ### Miscellaneous lemmas -/

theorem find?_id_of_nodup {actions : List Action} {a : Action} (ha : a ∈ actions)
    (hN : (actions.map (fun x => x.id)).Nodup) :
    actions.find? (fun x => x.id = a.id) = some a := by
  induction actions with
  | nil => cases ha
  | cons b rest ih =>
    simp only [List.map_cons, List.nodup_cons] at hN
    by_cases hb : b.id = a.id
    · have hab : b = a := by
        rcases List.mem_cons.mp ha with rfl | ha'
        · rfl
        · exact absurd (by rw [hb]; exact List.mem_map.mpr ⟨a, ha', rfl⟩) hN.1
      rw [List.find?_cons_of_pos _ (by simp [hb])]
      rw [hab]
    · have ha' : a ∈ rest := by
        rcases List.mem_cons.mp ha with rfl | ha'
        · exact absurd rfl hb
        · exact ha'
      rw [List.find?_cons_of_neg _ (by simp [hb])]
      exact ih ha' hN.2

theorem mem_reverse_dependencies {actions : List Action} {d : String} {c : Action} :
    c ∈ reverse_dependencies actions d ↔ c ∈ actions ∧ d ∈ c.depends_on := by
  simp only [reverse_dependencies, List.mem_flatMap, List.mem_map, List.mem_filter]
  constructor
  · rintro ⟨a, ha, x, ⟨hx, hxd⟩, rfl⟩
    simp only [decide_eq_true_eq] at hxd
    subst hxd
    exact ⟨ha, hx⟩
  · rintro ⟨hc, hd⟩
    exact ⟨c, hc, d, ⟨hd, by simp⟩, rfl⟩

theorem le_foldl_max (l : List Nat) : ∀ i, i ≤ l.foldl Nat.max i := by
  induction l with
  | nil => intro i; simp
  | cons x xs ih =>
    intro i
    simp only [List.foldl_cons]
    exact le_trans (Nat.le_max_left i x) (ih (Nat.max i x))

theorem mem_le_foldl_max {l : List Nat} {x : Nat} (hx : x ∈ l) :
    ∀ i, x ≤ l.foldl Nat.max i := by
  induction l with
  | nil => cases hx
  | cons y ys ih =>
    intro i
    rcases List.mem_cons.mp hx with rfl | hx'
    · simp only [List.foldl_cons]
      exact le_trans (Nat.le_max_right i x) (le_foldl_max ys (Nat.max i x))
    · exact ih hx' (Nat.max i y)

theorem map_id_nodup {l ag : List Agent} (hag : (ag.map (fun a => a.id)).Nodup)
    (hsub : ∀ x ∈ l, x ∈ ag) (hl : l.Nodup) : (l.map (fun a => a.id)).Nodup := by
  rw [List.nodup_map_iff_inj_on hl]
  intro x hx y hy hxy
  exact List.inj_on_of_nodup_map hag (hsub x hx) (hsub y hy) hxy

theorem mem_free_qualified {x : Agent} {task : Action} {stage : Nat}
    {sa : List (Nat × List ActionAssignment)} {ag : List Agent} :
    x ∈ free_qualified task stage sa ag ↔
      x ∈ ag ∧ can_do_action x task.type ∧ ¬ x.id ∈ used_ids stage sa := by
  simp only [free_qualified, get_free_agents, List.mem_filter, decide_eq_true_eq,
    decide_not, Bool.not_eq_true', decide_eq_false_iff_not]
  tauto

theorem mapM_some_cons {σ τ : Type} {g : σ → Option τ} {a : σ} {rest : List σ}
    {bs : List τ} (hm : (a :: rest).mapM g = some bs) :
    ∃ b bs2, g a = some b ∧ rest.mapM g = some bs2 ∧ bs = b :: bs2 := by
  rw [List.mapM_cons] at hm
  rcases hga : g a with _ | b
  · rw [hga] at hm
    cases hm
  · rw [hga] at hm
    rcases hrest : rest.mapM g with _ | bs2
    · rw [hrest] at hm
      cases hm
    · rw [hrest] at hm
      simp only [Option.bind_eq_bind, Option.some_bind, Option.pure_def,
        Option.some.injEq] at hm
      exact ⟨b, bs2, rfl, rfl, hm.symm⟩

theorem findMissing_none_iff {actions : List Action} :
    findMissing actions = none ↔
      ∀ a ∈ actions, ∀ dep ∈ a.depends_on, ∃ x ∈ actions, x.id = dep := by
  unfold findMissing
  rw [List.findSome?_eq_none_iff]
  have key : ∀ a : Action,
      ((a.depends_on.find? (fun dep => ¬ actions.any (fun x => x.id = dep))).map
        (fun dep => (a.id, dep)) = none) ↔
      ∀ dep ∈ a.depends_on, ∃ x ∈ actions, x.id = dep := by
    intro a
    rw [Option.map_eq_none', List.find?_eq_none]
    constructor
    · intro h dep hdep
      have h2 := h dep hdep
      simp only [decide_not, Bool.not_eq_true', Bool.not_eq_false,
        List.any_eq_true, decide_eq_true_eq] at h2
      exact h2
    · intro h dep hdep
      have h2 := h dep hdep
      simp only [decide_not, Bool.not_eq_true', Bool.not_eq_false,
        List.any_eq_true, decide_eq_true_eq]
      exact h2
  constructor
  · intro h a ha
    exact (key a).mp (h a ha)
  · intro h a ha
    exact (key a).mpr (h a ha)

theorem not_any_id {actions : List Action} {dep : String}
    (h : (actions.any (fun x => x.id = dep)) = false) : ¬ ∃ x ∈ actions, x.id = dep := by
  simp only [List.any_eq_false, decide_eq_true_eq] at h
  rintro ⟨x, hx, hx2⟩
  exact h x hx hx2

theorem findMissing_some {actions : List Action} {aid dep : String}
    (h : findMissing actions = some (aid, dep)) :
    ∃ a ∈ actions, a.id = aid ∧ dep ∈ a.depends_on ∧ ¬ ∃ x ∈ actions, x.id = dep := by
  unfold findMissing at h
  obtain ⟨a, ha, hfa⟩ := List.exists_of_findSome?_eq_some h
  rcases hfind : a.depends_on.find? (fun d => ¬ actions.any (fun x => x.id = d)) with _ | d
  · rw [hfind] at hfa
    cases hfa
  · rw [hfind] at hfa
    simp only [Option.map_some', Option.some.injEq, Prod.mk.injEq] at hfa
    obtain ⟨rfl, rfl⟩ := hfa
    have hmem := List.mem_of_find?_eq_some hfind
    have hpred := List.find?_some hfind
    simp only [decide_not, Bool.not_eq_true', decide_eq_false_iff_not] at hpred
    refine ⟨a, ha, rfl, hmem, not_any_id ?_⟩
    exact Bool.not_eq_true _ ▸ hpred

/-! ### The stage dictionary under `addStage` -/

/-- All assignments recorded across all stages. -/
def allAsgs (sa : List (Nat × List ActionAssignment)) : List ActionAssignment :=
  sa.flatMap (fun p => p.2)

/-- The number of assignments recorded for an action id. -/
def countId (sa : List (Nat × List ActionAssignment)) (i : String) : Nat :=
  ((allAsgs sa).filter (fun asg => asg.action_id = i)).length

theorem allAsgs_append (l1 l2 : List (Nat × List ActionAssignment)) :
    allAsgs (l1 ++ l2) = allAsgs l1 ++ allAsgs l2 := by
  simp [allAsgs]

theorem mem_allAsgs_iff {sa : List (Nat × List ActionAssignment)} {asg : ActionAssignment} :
    asg ∈ allAsgs sa ↔ ∃ p ∈ sa, asg ∈ p.2 := by
  simp [allAsgs]

theorem addStage_none {sa : List (Nat × List ActionAssignment)} {stage : Nat}
    (h : alookup sa stage = none) (a : ActionAssignment) :
    addStage sa stage a = sa ++ [(stage, [a])] := by
  unfold addStage
  rw [h, dictInsert_of_fresh h]
  rfl

theorem addStage_decomp_some {sa : List (Nat × List ActionAssignment)} {stage : Nat}
    {L : List ActionAssignment} (hkeys : (sa.map Prod.fst).Nodup)
    (hL : alookup sa stage = some L) (a : ActionAssignment) :
    ∃ pre suf, sa = pre ++ (stage, L) :: suf ∧
      addStage sa stage a = pre ++ (stage, L ++ [a]) :: suf ∧
      (∀ p ∈ pre, p.1 ≠ stage) ∧ (∀ p ∈ suf, p.1 ≠ stage) := by
  induction sa with
  | nil => cases hL
  | cons q rest ih =>
    obtain ⟨k, v⟩ := q
    simp only [List.map_cons, List.nodup_cons] at hkeys
    by_cases hk : k = stage
    · subst hk
      have hLv : L = v := by
        simp [alookup] at hL
        exact hL.symm
      subst hLv
      refine ⟨[], rest, by simp, ?_, by simp, ?_⟩
      · unfold addStage
        rw [hL]
        have hany : ((k, L) :: rest).any (fun p => p.1 = k) = true := by simp
        unfold dictInsert
        rw [if_pos hany]
        simp only [List.map_cons, if_pos (by rfl : ((k, L) : Nat × List ActionAssignment).1 = k)]
        have hrest : rest.map (fun p => if p.1 = k then (k, (Option.getD (some L) []) ++ [a]) else p) = rest := by
          refine List.map_congr_left ?_ |>.trans (List.map_id rest)
          intro p hp
          have : p.1 ≠ k := by
            intro he
            exact hkeys.1 (he ▸ List.mem_map.mpr ⟨p, hp, rfl⟩)
          simp [this]
        simp only [Option.getD_some] at hrest ⊢
        rw [hrest]
        simp
      · intro p hp he
        exact hkeys.1 (he ▸ List.mem_map.mpr ⟨p, hp, rfl⟩)
    · have hL' : alookup rest stage = some L := by
        simpa [alookup, hk] using hL
      obtain ⟨pre, suf, heq, hadd, hpre, hsuf⟩ := ih hkeys.2 hL'
      refine ⟨(k, v) :: pre, suf, by simp [heq], ?_, ?_, hsuf⟩
      · have hany : ((k, v) :: rest).any (fun p => p.1 = stage) = true := by
          have : ∃ p ∈ rest, p.1 = stage := by
            have := alookup_isSome_iff.mp (by rw [hL']; rfl)
            exact this
          simp only [List.any_eq_true, decide_eq_true_eq]
          obtain ⟨p, hp, hps⟩ := this
          exact ⟨p, List.mem_cons_of_mem _ hp, hps⟩
        have hlook : alookup ((k, v) :: rest) stage = alookup rest stage := by
          simp [alookup, hk]
        unfold addStage
        unfold dictInsert
        rw [if_pos hany]
        simp only [List.map_cons, if_neg hk]
        have hrest : rest.map (fun p =>
            if p.1 = stage then (stage, (alookup ((k, v) :: rest) stage).getD [] ++ [a]) else p) =
            pre ++ (stage, L ++ [a]) :: suf := by
          have hany2 : rest.any (fun p => p.1 = stage) = true := by
            have := alookup_isSome_iff.mp (by rw [hL']; rfl)
            simp only [List.any_eq_true, decide_eq_true_eq]
            exact this
          have : addStage rest stage a =
              rest.map (fun p =>
                if p.1 = stage then (stage, (alookup rest stage).getD [] ++ [a]) else p) := by
            unfold addStage dictInsert
            rw [if_pos hany2]
          rw [hlook, ← this, hadd]
        rw [hrest]
        simp
      · intro p hp
        rcases List.mem_cons.mp hp with rfl | hp'
        · exact hk
        · exact hpre p hp'

theorem addStage_mem {sa : List (Nat × List ActionAssignment)} {stage : Nat}
    {a : ActionAssignment} (hkeys : (sa.map Prod.fst).Nodup) :
    ∀ p ∈ addStage sa stage a,
      p ∈ sa ∨ (p.1 = stage ∧ p.2 = ((alookup sa stage).getD []) ++ [a]) := by
  rcases hL : alookup sa stage with _ | L
  · rw [addStage_none hL]
    intro p hp
    rcases List.mem_append.mp hp with h | h
    · exact Or.inl h
    · simp only [List.mem_singleton] at h
      subst h
      exact Or.inr ⟨rfl, by simp⟩
  · obtain ⟨pre, suf, heq, hadd, hpreh, hsufh⟩ := addStage_decomp_some hkeys hL a
    rw [hadd]
    intro p hp
    rcases List.mem_append.mp hp with h | h
    · exact Or.inl (by rw [heq]; exact List.mem_append.mpr (Or.inl h))
    · rcases List.mem_cons.mp h with rfl | h'
      · exact Or.inr ⟨rfl, by simp⟩
      · exact Or.inl (by rw [heq]; exact List.mem_append.mpr (Or.inr (List.mem_cons_of_mem _ h')))

theorem addStage_perm {sa : List (Nat × List ActionAssignment)}
    (hkeys : (sa.map Prod.fst).Nodup) (stage : Nat) (a : ActionAssignment) :
    List.Perm (allAsgs (addStage sa stage a)) (allAsgs sa ++ [a]) := by
  rcases hL : alookup sa stage with _ | L
  · rw [addStage_none hL, allAsgs_append]
    have h2 : allAsgs [(stage, [a])] = [a] := by simp [allAsgs]
    rw [h2]
  · obtain ⟨pre, suf, heq, hadd, -, -⟩ := addStage_decomp_some hkeys hL a
    rw [hadd, heq]
    simp only [allAsgs, List.flatMap_append, List.flatMap_cons, List.append_assoc]
    exact List.Perm.append_left _ (List.Perm.append_left _ List.perm_append_comm)

theorem addStage_keys_nodup {sa : List (Nat × List ActionAssignment)} {stage : Nat}
    (hkeys : (sa.map Prod.fst).Nodup) (a : ActionAssignment) :
    ((addStage sa stage a).map Prod.fst).Nodup := by
  rcases hL : alookup sa stage with _ | L
  · rw [addStage_none hL]
    simp only [List.map_append, List.map_cons, List.map_nil]
    rw [List.nodup_append]
    refine ⟨hkeys, by simp, ?_⟩
    intro x hx hx'
    simp only [List.mem_singleton, List.mem_cons, List.not_mem_nil, or_false] at hx'
    subst hx'
    rcases List.mem_map.mp hx with ⟨p, hp, hps⟩
    exact absurd hps ((alookup_eq_none.mp hL) p hp)
  · obtain ⟨pre, suf, heq, hadd, -, -⟩ := addStage_decomp_some hkeys hL a
    have : (addStage sa stage a).map Prod.fst = sa.map Prod.fst := by
      rw [hadd, heq]
      simp
    rw [this]
    exact hkeys

theorem countId_addStage {sa : List (Nat × List ActionAssignment)} {stage : Nat}
    {a : ActionAssignment} (hkeys : (sa.map Prod.fst).Nodup) (i : String) :
    countId (addStage sa stage a) i =
      countId sa i + (if a.action_id = i then 1 else 0) := by
  unfold countId
  have hperm := (addStage_perm hkeys stage a).filter (fun asg => decide (asg.action_id = i))
  rw [hperm.length_eq, List.filter_append, List.length_append]
  by_cases h : a.action_id = i <;> simp [h]

theorem countId_zero {sa : List (Nat × List ActionAssignment)}
    {assigned : List (String × Nat)} {i : String}
    (hlk : ∀ asg ∈ allAsgs sa, alookup assigned asg.action_id = some asg.stage)
    (hi : alookup assigned i = none) : countId sa i = 0 := by
  unfold countId
  rw [List.length_eq_zero]
  rw [List.filter_eq_nil_iff]
  intro asg hasg
  simp only [decide_eq_true_eq]
  intro he
  have h2 := hlk asg hasg
  rw [he] at h2
  rw [h2] at hi
  cases hi

theorem alookup_mem {κ α : Type} [DecidableEq κ] {l : List (κ × α)} {k : κ} {v : α}
    (h : alookup l k = some v) : (k, v) ∈ l := by
  induction l with
  | nil => cases h
  | cons p rest ih =>
    obtain ⟨k2, v2⟩ := p
    by_cases hk : k2 = k
    · subst hk
      have h2 : v2 = v := by simpa [alookup] using h
      subst h2
      exact List.mem_cons_self _ _
    · simp only [alookup, if_neg hk] at h
      exact List.mem_cons_of_mem _ (ih h)

/-! ### The planning invariant -/

/-- Recorded stages persist: the assigned-actions map only grows. -/
def Mono (st st2 : SchedState) : Prop :=
  ∀ i s, alookup st.assigned_actions i = some s →
    alookup st2.assigned_actions i = some s

theorem mono_refl (st : SchedState) : Mono st st := fun _ _ h => h

theorem mono_trans {s1 s2 s3 : SchedState} (h1 : Mono s1 s2) (h2 : Mono s2 s3) :
    Mono s1 s3 := fun i s h => h2 i s (h1 i s h)

/-- The invariant maintained by the scheduler over its whole state: the
unassigned dict is exactly the not-yet-assigned part of the action dict;
stage keys are distinct; every recorded assignment carries its stage and is
registered (exactly once) in `assigned_actions`; every registered id is an
input action id; within a stage all agent ids are distinct (for a
duplicate-free roster); every assignment has exactly its action's minimum of
qualified agents (for duplicate-free action ids); and every assignment of an
action with dependencies sits strictly above at least one of them. -/
structure Inv (actions : List Action) (agents : List Agent) (st : SchedState) : Prop where
  uA : st.unassigned = (actionDictValues actions).filter
    (fun a => (alookup st.assigned_actions a.id).isNone)
  keysN : (st.stage_assignments.map Prod.fst).Nodup
  stagesOK : ∀ p ∈ st.stage_assignments, ∀ asg ∈ p.2, asg.stage = p.1
  lookupOK : ∀ asg ∈ allAsgs st.stage_assignments,
    alookup st.assigned_actions asg.action_id = some asg.stage
  countOK : ∀ p ∈ st.assigned_actions, countId st.stage_assignments p.1 = 1
  aIds : ∀ p ∈ st.assigned_actions, p.1 ∈ actions.map (fun a => a.id)
  disjointAg : (agents.map (fun a => a.id)).Nodup →
    ∀ p ∈ st.stage_assignments,
      (p.2.flatMap (fun asg => asg.assigned_agents.map (fun ag => ag.id))).Nodup
  agentsOK : (actions.map (fun a => a.id)).Nodup →
    ∀ asg ∈ allAsgs st.stage_assignments, ∃ act,
      actions.find? (fun a => a.id = asg.action_id) = some act ∧
      asg.assigned_agents.length = act.reqMin ∧
      ∀ ag ∈ asg.assigned_agents, can_do_action ag act.type
  depOK : (actions.map (fun a => a.id)).Nodup →
    ∀ asg ∈ allAsgs st.stage_assignments, ∀ act,
      actions.find? (fun a => a.id = asg.action_id) = some act →
      act.depends_on ≠ [] →
      ∃ d ∈ act.depends_on, ∃ sd,
        alookup st.assigned_actions d = some sd ∧ sd < asg.stage

theorem inv_set_handler {actions : List Action} {agents : List Agent} {st : SchedState}
    (h : Inv actions agents st) (hh : List (String × Agent)) :
    Inv actions agents { st with handler := hh } :=
  { uA := h.uA, keysN := h.keysN, stagesOK := h.stagesOK, lookupOK := h.lookupOK,
    countOK := h.countOK, aIds := h.aIds, disjointAg := h.disjointAg,
    agentsOK := h.agentsOK, depOK := h.depOK }

theorem inv_initial (actions : List Action) (agents : List Agent)
    (h0 : List (String × Agent)) :
    Inv actions agents ⟨[], [], actionDictValues actions, h0⟩ where
  uA := by
    show actionDictValues actions =
      (actionDictValues actions).filter (fun a => (alookup [] a.id).isNone)
    simp [alookup]
  keysN := by simp
  stagesOK := by simp
  lookupOK := by simp [allAsgs]
  countOK := by simp
  aIds := by simp
  disjointAg := by simp
  agentsOK := by simp [allAsgs]
  depOK := by simp [allAsgs]

/-- The new assignment record written by `recordAssignment`. -/
def mkAsg (task : Action) (assigned : List Agent) (stage : Nat) : ActionAssignment :=
  ⟨task.id, assigned, stage, task.description⟩

theorem record_preserves_inv {actions : List Action} {agents : List Agent}
    {st : SchedState} {task : Action} {assigned : List Agent} {stage : Nat}
    (hInv : Inv actions agents st)
    (hguard : st.unassigned.any (fun a => a.id = task.id) = true)
    (htid : task.id ∈ actions.map (fun a => a.id))
    (hfind : (actions.map (fun a => a.id)).Nodup →
      actions.find? (fun a => a.id = task.id) = some task)
    (hdep : task.depends_on ≠ [] → ∃ d ∈ task.depends_on, ∃ sd,
      alookup st.assigned_actions d = some sd ∧ sd < stage)
    (hatt : schedule_attempt task stage st.stage_assignments agents st.handler
      = some assigned) :
    Inv actions agents (recordAssignment task assigned stage st) ∧
    alookup (recordAssignment task assigned stage st).assigned_actions task.id
      = some stage ∧
    Mono st (recordAssignment task assigned stage st) := by
  obtain ⟨a0, ha0, ha0id⟩ : ∃ a ∈ st.unassigned, a.id = task.id := by
    simpa using hguard
  have hnone : alookup st.assigned_actions task.id = none := by
    rw [hInv.uA] at ha0
    have h2 := (List.mem_filter.mp ha0).2
    rw [ha0id] at h2
    simpa [Option.isNone_iff_eq_none] using h2
  have hassigned_eq : (recordAssignment task assigned stage st).assigned_actions =
      st.assigned_actions ++ [(task.id, stage)] := dictInsert_of_fresh hnone stage
  have hstages_eq : (recordAssignment task assigned stage st).stage_assignments =
      addStage st.stage_assignments stage (mkAsg task assigned stage) := rfl
  have hMono : Mono st (recordAssignment task assigned stage st) := by
    intro i s h
    rw [hassigned_eq, alookup_append, h]
  have hself : alookup (recordAssignment task assigned stage st).assigned_actions task.id
      = some stage := by
    rw [hassigned_eq, alookup_append, hnone]
    simp [alookup]
  have hsub := schedule_attempt_some_subset hatt
  have hlen := schedule_attempt_some_length hatt
  have hperm := addStage_perm hInv.keysN stage (mkAsg task assigned stage)
  have hmemA : ∀ asg, asg ∈ allAsgs (recordAssignment task assigned stage st).stage_assignments ↔
      asg ∈ allAsgs st.stage_assignments ∨ asg = mkAsg task assigned stage := by
    intro asg
    rw [hstages_eq, hperm.mem_iff]
    simp
  refine ⟨?_, hself, hMono⟩
  constructor
  case uA =>
    show st.unassigned.filter (fun a => ¬ a.id = task.id) = _
    simp only [hassigned_eq]
    rw [hInv.uA, List.filter_filter]
    refine (List.filter_congr ?_)
    intro a ha
    by_cases hid : a.id = task.id
    · have hl2 : alookup (st.assigned_actions ++ [(task.id, stage)]) task.id = some stage := by
        rw [alookup_append, hnone]
        simp [alookup]
      simp [hid, hl2]
    · have hl2 : alookup (st.assigned_actions ++ [(task.id, stage)]) a.id =
          alookup st.assigned_actions a.id := by
        rw [alookup_append]
        rcases h3 : alookup st.assigned_actions a.id with _ | s
        · have hne : ¬ task.id = a.id := fun h4 => hid h4.symm
          simp [alookup, hne]
        · rfl
      simp [hid, hl2]
  case keysN =>
    rw [hstages_eq]
    exact addStage_keys_nodup hInv.keysN _
  case stagesOK =>
    rw [hstages_eq]
    intro p hp asg hasg
    rcases addStage_mem hInv.keysN p hp with h | ⟨hp1, hp2⟩
    · exact hInv.stagesOK p h asg hasg
    · rw [hp2] at hasg
      rcases List.mem_append.mp hasg with h2 | h2
      · rcases hL : alookup st.stage_assignments stage with _ | L
        · rw [hL] at h2
          cases h2
        · rw [hL] at h2
          have := hInv.stagesOK (stage, L) (alookup_mem hL) asg h2
          rw [this, hp1]
      · simp only [List.mem_singleton] at h2
        subst h2
        exact hp1.symm
  case lookupOK =>
    intro asg hasg
    rcases (hmemA asg).mp hasg with hold | rfl
    · exact hMono _ _ (hInv.lookupOK asg hold)
    · exact hself
  case countOK =>
    intro p hp
    rw [hassigned_eq] at hp
    rw [hstages_eq, countId_addStage hInv.keysN]
    rcases List.mem_append.mp hp with hold | hnew
    · have hne : ¬ (mkAsg task assigned stage).action_id = p.1 := by
        intro he
        have : (alookup st.assigned_actions p.1).isSome :=
          alookup_isSome_iff.mpr ⟨p, hold, rfl⟩
        rw [← he] at this
        rw [show (mkAsg task assigned stage).action_id = task.id from rfl] at this
        rw [hnone] at this
        cases this
      rw [if_neg hne]
      simpa using hInv.countOK p hold
    · simp only [List.mem_singleton] at hnew
      subst hnew
      have hc : (mkAsg task assigned stage).action_id = (task.id, stage).1 := rfl
      rw [if_pos hc]
      show countId st.stage_assignments task.id + 1 = 1
      rw [countId_zero hInv.lookupOK hnone]
  case aIds =>
    intro p hp
    rw [hassigned_eq] at hp
    rcases List.mem_append.mp hp with hold | hnew
    · exact hInv.aIds p hold
    · simp only [List.mem_singleton] at hnew
      subst hnew
      exact htid
  case disjointAg =>
    intro hag p hp
    rw [hstages_eq] at hp
    rcases addStage_mem hInv.keysN p hp with hold | ⟨hp1, hp2⟩
    · exact hInv.disjointAg hag p hold
    · rw [hp2, List.flatMap_append]
      rw [List.nodup_append]
      have hidsub : ∀ x ∈ assigned, x ∈ agents := by
        intro x hx
        exact (mem_free_qualified.mp (hsub x hx)).1
      refine ⟨?_, ?_, ?_⟩
      · rcases hL : alookup st.stage_assignments stage with _ | L
        · simp
        · simp only [Option.getD_some]
          exact hInv.disjointAg hag (stage, L) (alookup_mem hL)
      · have hnd : assigned.Nodup :=
          schedule_attempt_some_nodup (hag.of_map) hatt
        have := map_id_nodup hag hidsub hnd
        simpa [mkAsg] using this
      · intro i hi hi2
        simp only [List.flatMap_cons, List.flatMap_nil, List.append_nil, mkAsg] at hi2
        rcases List.mem_map.mp hi2 with ⟨x, hx, rfl⟩
        have := (mem_free_qualified.mp (hsub x hx)).2.2
        exact this hi
  case agentsOK =>
    intro hN asg hasg
    rcases (hmemA asg).mp hasg with hold | rfl
    · exact hInv.agentsOK hN asg hold
    · refine ⟨task, hfind hN, ?_, ?_⟩
      · simpa [mkAsg] using hlen
      · intro ag hag2
        simp only [mkAsg] at hag2
        exact (mem_free_qualified.mp (hsub ag hag2)).2.1
  case depOK =>
    intro hN asg hasg act hact hdeps
    rcases (hmemA asg).mp hasg with hold | rfl
    · obtain ⟨d, hd, sd, hsd, hlt⟩ := hInv.depOK hN asg hold act hact hdeps
      exact ⟨d, hd, sd, hMono _ _ hsd, hlt⟩
    · have hact2 : act = task := by
        have h2 := hfind hN
        rw [show (mkAsg task assigned stage).action_id = task.id from rfl] at hact
        rw [hact] at h2
        exact Option.some.inj h2
      subst hact2
      obtain ⟨d, hd, sd, hsd, hlt⟩ := hdep hdeps
      exact ⟨d, hd, sd, hMono _ _ hsd, by simpa [mkAsg] using hlt⟩

/-- Precondition under which `schedule_task` is entered for one task: the
task is unassigned, its id is an input action id (and under distinct ids the
task is the action of that id), and, when it has dependencies, one of them
is recorded strictly below the desired stage. -/
def TaskPre (actions : List Action) (st : SchedState) (task : Action)
    (desired : Nat) : Prop :=
  st.unassigned.any (fun a => a.id = task.id) = true ∧
  task.id ∈ actions.map (fun a => a.id) ∧
  ((actions.map (fun a => a.id)).Nodup →
    actions.find? (fun a => a.id = task.id) = some task) ∧
  (task.depends_on ≠ [] → ∃ d ∈ task.depends_on, ∃ sd,
    alookup st.assigned_actions d = some sd ∧ sd < desired)

/-- Precondition for the child loop: every listed child is an input action
with a dependency recorded at or below the parent's stage. -/
def KidsPre (actions : List Action) (st : SchedState) (cs : List Action)
    (stage : Nat) : Prop :=
  ∀ c ∈ cs, c ∈ actions ∧ ∃ d ∈ c.depends_on, ∃ sd,
    alookup st.assigned_actions d = some sd ∧ sd ≤ stage

def JobPre (actions : List Action) (st : SchedState) : SchedJob → Prop
  | .task t desired => TaskPre actions st t desired
  | .kids cs stage => KidsPre actions st cs stage

theorem schedule_task_inv (actions : List Action) (agents : List Agent)
    (dc : String → Nat) :
    ∀ fuel job st st2,
      schedule_task agents (reverse_dependencies actions) dc fuel job st
        = some (.ok st2) →
      Inv actions agents st → JobPre actions st job →
      Inv actions agents st2 ∧ Mono st st2 := by
  intro fuel
  induction fuel with
  | zero =>
    intro job st st2 hrun
    simp [schedule_task] at hrun
  | succ fuel ih =>
    intro job st st2 hrun hInv hpre
    match job with
    | .task task desired =>
      simp only [schedule_task] at hrun
      split at hrun
      · cases hrun
      · rename_i assigned stage hsearch
        obtain ⟨hdes, hatt⟩ := stage_search_some hsearch
        obtain ⟨hg, htid, hfind, hdep⟩ := hpre
        have hdep2 : task.depends_on ≠ [] → ∃ d ∈ task.depends_on, ∃ sd,
            alookup st.assigned_actions d = some sd ∧ sd < stage := by
          intro hne
          obtain ⟨d, hd, sd, hsd, hlt⟩ := hdep hne
          exact ⟨d, hd, sd, hsd, by omega⟩
        obtain ⟨hInv1, hself, hMono1⟩ :=
          record_preserves_inv hInv hg htid hfind hdep2 hatt
        split at hrun
        · cases hrun
        · rename_i h2 hupd
          have hkpre : KidsPre actions
              { recordAssignment task assigned stage st with handler := h2 }
              (sortDesc (fun a => dc a.id) (reverse_dependencies actions task.id))
              stage := by
            intro c hc
            rw [mem_sortDesc] at hc
            obtain ⟨hcact, hcdep⟩ := mem_reverse_dependencies.mp hc
            exact ⟨hcact, task.id, hcdep, stage, hself, le_refl stage⟩
          have hres := ih _ _ _ hrun (inv_set_handler hInv1 h2) hkpre
          refine ⟨hres.1, mono_trans hMono1 (mono_trans ?_ hres.2)⟩
          intro i s h
          exact h
    | .kids [] stage =>
      simp only [schedule_task, Option.some.injEq, Except.ok.injEq] at hrun
      subst hrun
      exact ⟨hInv, mono_refl st⟩
    | .kids (child :: rest) stage =>
      simp only [schedule_task] at hrun
      have hkchild := hpre child (List.mem_cons_self _ _)
      split at hrun
      · rename_i hg
        split at hrun
        · cases hrun
        · cases hrun
        · rename_i stmid hchild
          have htpre : TaskPre actions st child (stage + 1) := by
            refine ⟨hg.1, List.mem_map.mpr ⟨child, hkchild.1, rfl⟩, ?_, ?_⟩
            · intro hN
              exact find?_id_of_nodup hkchild.1 hN
            · intro _
              obtain ⟨d, hd, sd, hsd, hle⟩ := hkchild.2
              exact ⟨d, hd, sd, hsd, by omega⟩
          have h1 := ih _ _ _ hchild hInv htpre
          have hkpre2 : KidsPre actions stmid rest stage := by
            intro c hc
            obtain ⟨hcact, d, hd, sd, hsd, hle⟩ :=
              hpre c (List.mem_cons_of_mem _ hc)
            exact ⟨hcact, d, hd, sd, h1.2 d sd hsd, hle⟩
          have h2 := ih _ _ _ hrun h1.1 hkpre2
          exact ⟨h2.1, mono_trans h1.2 h2.2⟩
      · have hkpre2 : KidsPre actions st rest stage := by
          intro c hc
          exact hpre c (List.mem_cons_of_mem _ hc)
        exact ih _ _ _ hrun hInv hkpre2

theorem update_object_tracking_error {action : Action} {assigned : List Agent}
    {handler : List (String × Agent)} {e : PyErr}
    (h : update_object_tracking action assigned handler = .error e) :
    e = .indexError := by
  unfold update_object_tracking at h
  split at h
  · match assigned, h with
    | a0 :: rest, h => cases h
    | [], h =>
      by_cases hobj : action.objects.isEmpty = true
      · rw [if_pos hobj] at h
        cases h
      · rw [if_neg hobj] at h
        exact (Except.error.inj h).symm
  · cases h

theorem schedule_task_error {agents : List Agent} {rd : String → List Action}
    {dc : String → Nat} :
    ∀ fuel job st e, schedule_task agents rd dc fuel job st = some (.error e) →
      e = .indexError := by
  intro fuel
  induction fuel with
  | zero => intro job st e h; simp [schedule_task] at h
  | succ fuel ih =>
    intro job st e h
    match job with
    | .task task desired =>
      simp only [schedule_task] at h
      split at h
      · cases h
      · split at h
        · rename_i e2 hupd
          have h2 := Except.error.inj (Option.some.inj h)
          rw [← h2]
          exact update_object_tracking_error hupd
        · exact ih _ _ _ h
    | .kids [] stage => simp [schedule_task] at h
    | .kids (child :: rest) stage =>
      simp only [schedule_task] at h
      split at h
      · split at h
        · cases h
        · rename_i e2 hchild
          have h2 := Except.error.inj (Option.some.inj h)
          rw [← h2]
          exact ih _ _ _ hchild
        · exact ih _ _ _ h
      · exact ih _ _ _ h

theorem run_roots_inv (actions : List Action) (agents : List Agent)
    (dc : String → Nat) (fuel : Nat) :
    ∀ ts st st2,
      run_roots agents (reverse_dependencies actions) dc fuel ts st = some (.ok st2) →
      Inv actions agents st → (∀ t ∈ ts, t ∈ actions ∧ t.depends_on = []) →
      Inv actions agents st2 ∧ Mono st st2 := by
  intro ts
  induction ts with
  | nil =>
    intro st st2 hrun hInv _
    simp only [run_roots, Option.some.injEq, Except.ok.injEq] at hrun
    subst hrun
    exact ⟨hInv, mono_refl st⟩
  | cons t rest ih =>
    intro st st2 hrun hInv hts
    simp only [run_roots] at hrun
    split at hrun
    · rename_i hg
      split at hrun
      · cases hrun
      · cases hrun
      · rename_i stmid hsched
        have htpre : TaskPre actions st t 1 := by
          refine ⟨hg, List.mem_map.mpr ⟨t, (hts t (List.mem_cons_self _ _)).1, rfl⟩,
            ?_, ?_⟩
          · intro hN
            exact find?_id_of_nodup (hts t (List.mem_cons_self _ _)).1 hN
          · intro hne
            exact absurd (hts t (List.mem_cons_self _ _)).2 hne
        have h1 := schedule_task_inv actions agents dc fuel _ _ _ hsched hInv htpre
        have h2 := ih _ _ hrun h1.1 (fun b hb => hts b (List.mem_cons_of_mem _ hb))
        exact ⟨h2.1, mono_trans h1.2 h2.2⟩
    · exact ih _ _ hrun hInv (fun b hb => hts b (List.mem_cons_of_mem _ hb))

theorem fallback_for_inv (actions : List Action) (agents : List Agent)
    (dc : String → Nat) (fuel : Nat) :
    ∀ ts st st2,
      fallback_for agents (reverse_dependencies actions) dc fuel ts st
        = some (.ok st2) →
      Inv actions agents st →
      (∀ t ∈ ts, t ∈ actionDictValues actions ∧
        ∀ d ∈ t.depends_on, (alookup st.assigned_actions d).isSome = true) →
      Inv actions agents st2 ∧ Mono st st2 := by
  intro ts
  induction ts with
  | nil =>
    intro st st2 hrun hInv _
    simp only [fallback_for, Option.some.injEq, Except.ok.injEq] at hrun
    subst hrun
    exact ⟨hInv, mono_refl st⟩
  | cons t rest ih =>
    intro st st2 hrun hInv hts
    simp only [fallback_for] at hrun
    split at hrun
    · rename_i hg
      split at hrun
      · cases hrun
      · rename_i desired hdesired
        split at hrun
        · cases hrun
        · cases hrun
        · rename_i stmid hsched
          have hmem := hts t (List.mem_cons_self _ _)
          have htpre : TaskPre actions st t desired := by
            refine ⟨hg, actionDictValues_id_mem hmem.1, ?_, ?_⟩
            · intro hN
              have ht2 : t ∈ actions := by
                rw [← actionDictValues_of_nodup hN]
                exact hmem.1
              exact find?_id_of_nodup ht2 hN
            · intro hne
              unfold desiredStage at hdesired
              rw [if_neg (by simpa using hne)] at hdesired
              obtain ⟨d, ds, hds⟩ := List.exists_cons_of_ne_nil hne
              rw [hds] at hdesired
              split at hdesired
              · cases hdesired
              · rename_i stages hmapM
                obtain ⟨y, ys2, hy, hys, hyeq⟩ := mapM_some_cons hmapM
                have hdes2 := Except.ok.inj hdesired
                refine ⟨d, by rw [hds]; exact List.mem_cons_self _ _, y, hy, ?_⟩
                have : y ≤ stages.foldl Nat.max 0 := by
                  rw [hyeq]
                  exact mem_le_foldl_max (List.mem_cons_self _ _) 0
                omega
          have h1 := schedule_task_inv actions agents dc fuel _ _ _ hsched hInv htpre
          have h2 := ih _ _ hrun h1.1 ?_
          · exact ⟨h2.1, mono_trans h1.2 h2.2⟩
          · intro b hb
            refine ⟨(hts b (List.mem_cons_of_mem _ hb)).1, ?_⟩
            intro d hd
            have h3 := (hts b (List.mem_cons_of_mem _ hb)).2 d hd
            rcases h4 : alookup st.assigned_actions d with _ | sd
            · rw [h4] at h3
              cases h3
            · rw [h1.2 d sd h4]
              rfl
    · exact ih _ _ hrun hInv (fun b hb => hts b (List.mem_cons_of_mem _ hb))

theorem fallback_inv (actions : List Action) (agents : List Agent)
    (dc : String → Nat) :
    ∀ fuel st st2,
      fallback agents (reverse_dependencies actions) dc fuel st = some (.ok st2) →
      Inv actions agents st →
      Inv actions agents st2 ∧ st2.unassigned = [] := by
  intro fuel
  induction fuel with
  | zero =>
    intro st st2 hrun hInv
    simp only [fallback] at hrun
    split at hrun
    · rename_i hemp
      simp only [Option.some.injEq, Except.ok.injEq] at hrun
      subst hrun
      exact ⟨hInv, List.isEmpty_iff.mp hemp⟩
    · cases hrun
  | succ fuel ih =>
    intro st st2 hrun hInv
    simp only [fallback] at hrun
    split at hrun
    · rename_i hemp
      simp only [Option.some.injEq, Except.ok.injEq] at hrun
      subst hrun
      exact ⟨hInv, List.isEmpty_iff.mp hemp⟩
    · split at hrun
      · cases hrun
      · split at hrun
        · cases hrun
        · cases hrun
        · rename_i stmid hfor
          have hts : ∀ t ∈ sortDesc (fun a => dc a.id) (fallback_available st),
              t ∈ actionDictValues actions ∧
              ∀ d ∈ t.depends_on, (alookup st.assigned_actions d).isSome = true := by
            intro t ht
            rw [mem_sortDesc] at ht
            unfold fallback_available at ht
            have h1 := List.mem_filter.mp ht
            have h2 : t ∈ actionDictValues actions := by
              have := h1.1
              rw [hInv.uA] at this
              exact (List.mem_filter.mp this).1
            refine ⟨h2, ?_⟩
            have h3 := h1.2
            simp only [List.all_eq_true] at h3
            exact fun d hd => h3 d hd
          have h1 := fallback_for_inv actions agents dc (fuel + 1) _ _ _ hfor hInv hts
          exact ih _ _ hrun h1.1

/-- A finished planning run leaves a final state satisfying the invariant,
with nothing unassigned, whose stage dict is the returned `stages`. -/
theorem plan_ok_state {fuel : Nat} {actions : List Action} {agents : List Agent}
    {h0 : List (String × Agent)} {r : PlanningResult} {hh : List (String × Agent)}
    (h : plan_parallel_actions fuel actions agents h0 = some (.ok (r, hh))) :
    ∃ st, Inv actions agents st ∧ st.unassigned = [] ∧
      r.stages = st.stage_assignments := by
  unfold plan_parallel_actions at h
  split at h
  · cases h
  · cases h
  · simp only [] at h
    split at h
    · cases h
    · cases h
    · rename_i st1 hroots
      split at h
      · cases h
      · cases h
      · rename_i st2 hfall
        simp only [Option.some.injEq, Except.ok.injEq, Prod.mk.injEq] at h
        have hInv0 := inv_initial actions agents h0
        have hroots_pre : ∀ t ∈ sortDesc (fun a => dependency_count actions a.id)
            (actions.filter (fun a => a.depends_on.isEmpty ∧ a.type = "fetch")),
            t ∈ actions ∧ t.depends_on = [] := by
          intro t ht
          rw [mem_sortDesc] at ht
          have h2 := List.mem_filter.mp ht
          refine ⟨h2.1, ?_⟩
          have h3 := h2.2
          simp only [decide_eq_true_eq] at h3
          exact List.isEmpty_iff.mp h3.1
        have h1 := run_roots_inv actions agents (dependency_count actions) fuel _ _ _
          hroots hInv0 hroots_pre
        have h2 := fallback_inv actions agents (dependency_count actions) fuel _ _
          hfall h1.1
        refine ⟨st2, h2.1, h2.2, ?_⟩
        rw [← h.1]

theorem desiredStage_error {st : SchedState} {t : Action} {e : PyErr}
    (h : desiredStage st t = .error e) : e = .keyError := by
  unfold desiredStage at h
  split at h
  · cases h
  · split at h
    · exact (Except.error.inj h).symm
    · cases h

theorem fallback_for_error {agents : List Agent} {rd : String → List Action}
    {dc : String → Nat} {fuel : Nat} :
    ∀ ts st e, fallback_for agents rd dc fuel ts st = some (.error e) →
      e = .indexError ∨ e = .keyError := by
  intro ts
  induction ts with
  | nil => intro st e h; simp [fallback_for] at h
  | cons t rest ih =>
    intro st e h
    simp only [fallback_for] at h
    split at h
    · split at h
      · rename_i e2 hdes
        have h2 := Except.error.inj (Option.some.inj h)
        rw [← h2]
        exact Or.inr (desiredStage_error hdes)
      · split at h
        · cases h
        · rename_i e2 hsched
          have h2 := Except.error.inj (Option.some.inj h)
          rw [← h2]
          exact Or.inl (schedule_task_error _ _ _ _ hsched)
        · exact ih _ _ h
    · exact ih _ _ h

theorem run_roots_error {agents : List Agent} {rd : String → List Action}
    {dc : String → Nat} {fuel : Nat} :
    ∀ ts st e, run_roots agents rd dc fuel ts st = some (.error e) →
      e = .indexError := by
  intro ts
  induction ts with
  | nil => intro st e h; simp [run_roots] at h
  | cons t rest ih =>
    intro st e h
    simp only [run_roots] at h
    split at h
    · split at h
      · cases h
      · rename_i e2 hsched
        have h2 := Except.error.inj (Option.some.inj h)
        rw [← h2]
        exact schedule_task_error _ _ _ _ hsched
      · exact ih _ _ h
    · exact ih _ _ h

theorem cycle_scan_error {actions : List Action} {fuel : Nat} :
    ∀ l visited e, cycle_scan actions fuel l visited = some (.error e) →
      ∃ aid, e = .cycleAt aid := by
  intro l
  induction l with
  | nil => intro visited e h; simp [cycle_scan] at h
  | cons a rest ih =>
    intro visited e h
    simp only [cycle_scan] at h
    split at h
    · exact ih _ _ h
    · split at h
      · cases h
      · exact ⟨a.id, (Except.error.inj (Option.some.inj h)).symm⟩
      · exact ih _ _ h

theorem validate_error_shape {fuel : Nat} {actions : List Action} {e : PyErr}
    (h : validate_dependencies fuel actions = some (.error e)) :
    (∃ a d, e = .missingDep a d) ∨ ∃ a, e = .cycleAt a := by
  unfold validate_dependencies at h
  split at h
  · rename_i aid dep hfm
    exact Or.inl ⟨aid, dep, (Except.error.inj (Option.some.inj h)).symm⟩
  · exact Or.inr (cycle_scan_error _ _ _ h)

theorem validate_ok_no_missing {fuel : Nat} {actions : List Action}
    (h : validate_dependencies fuel actions = some (.ok ())) :
    findMissing actions = none := by
  unfold validate_dependencies at h
  split at h
  · cases h
  · rename_i hfm
    exact hfm

/-- The fallback scan, when it errors with the starvation exception, reports
a nonempty id list in which every id belongs to an unassigned action one of
whose dependencies is itself in the list. -/
theorem fallback_starved (actions : List Action) (agents : List Agent)
    (dc : String → Nat) :
    ∀ fuel st ids,
      fallback agents (reverse_dependencies actions) dc fuel st
        = some (.error (.unableToSchedule ids)) →
      Inv actions agents st →
      (∀ a ∈ actions, ∀ dep ∈ a.depends_on, ∃ x ∈ actions, x.id = dep) →
      ids ≠ [] ∧ ∀ i ∈ ids, ∃ a, a ∈ actionDictValues actions ∧ a.id = i ∧
        ∃ d ∈ a.depends_on, d ∈ ids := by
  intro fuel
  induction fuel with
  | zero =>
    intro st ids h _ _
    simp only [fallback] at h
    split at h
    · cases h
    · cases h
  | succ fuel ih =>
    intro st ids h hInv hvalid
    simp only [fallback] at h
    split at h
    · cases h
    · rename_i hne
      split at h
      · rename_i hav
        have hids : ids = st.unassigned.map (fun a => a.id) :=
          (PyErr.unableToSchedule.inj (Except.error.inj (Option.some.inj h))).symm
        have havail : fallback_available st = [] := List.isEmpty_iff.mp hav
        have hstuck : ∀ a ∈ st.unassigned, ∃ d ∈ a.depends_on,
            alookup st.assigned_actions d = none := by
          intro a ha
          have : a ∉ fallback_available st := by
            rw [havail]
            exact List.not_mem_nil a
          unfold fallback_available at this
          have h2 : ¬ (a.depends_on.all
              (fun dep => (alookup st.assigned_actions dep).isSome) = true) := by
            intro hall
            exact this (List.mem_filter.mpr ⟨ha, hall⟩)
          simp only [List.all_eq_true, not_forall] at h2
          obtain ⟨d, hd, hds⟩ := h2
          refine ⟨d, hd, ?_⟩
          rcases h3 : alookup st.assigned_actions d with _ | s
          · rfl
          · rw [h3] at hds
            exact absurd rfl hds
        constructor
        · rw [hids]
          intro hmap
          rw [List.map_eq_nil_iff] at hmap
          exact hne (by rw [hmap]; rfl)
        · intro i hi
          rw [hids] at hi
          obtain ⟨a, ha, rfl⟩ := List.mem_map.mp hi
          have hadict : a ∈ actionDictValues actions := by
            have h2 := hInv.uA ▸ ha
            exact (List.mem_filter.mp h2).1
          refine ⟨a, hadict, rfl, ?_⟩
          obtain ⟨d, hd, hdnone⟩ := hstuck a ha
          refine ⟨d, hd, ?_⟩
          have hdid : d ∈ actions.map (fun x => x.id) := by
            obtain ⟨x, hx, hxid⟩ := hvalid a (actionDictValues_sub hadict) d hd
            exact List.mem_map.mpr ⟨x, hx, hxid⟩
          obtain ⟨b, hb, hbid⟩ := exists_value_of_id hdid
          have hbun : b ∈ st.unassigned := by
            rw [hInv.uA]
            refine List.mem_filter.mpr ⟨hb, ?_⟩
            rw [hbid, hdnone]
            rfl
          rw [hids]
          exact List.mem_map.mpr ⟨b, hbun, hbid⟩
      · split at h
        · cases h
        · rename_i e2 hfor
          rcases fallback_for_error _ _ _ hfor with he | he <;>
            · rw [he] at h
              have h2 := Except.error.inj (Option.some.inj h)
              cases h2
        · rename_i stmid hfor
          have hts : ∀ t ∈ sortDesc (fun a => dc a.id) (fallback_available st),
              t ∈ actionDictValues actions ∧
              ∀ d ∈ t.depends_on, (alookup st.assigned_actions d).isSome = true := by
            intro t ht
            rw [mem_sortDesc] at ht
            unfold fallback_available at ht
            have h1 := List.mem_filter.mp ht
            have h2 : t ∈ actionDictValues actions := by
              have h3 := h1.1
              rw [hInv.uA] at h3
              exact (List.mem_filter.mp h3).1
            refine ⟨h2, ?_⟩
            have h3 := h1.2
            simp only [List.all_eq_true] at h3
            exact fun d hd => h3 d hd
          have h1 := fallback_for_inv actions agents dc (fuel + 1) _ _ _ hfor hInv hts
          exact ih _ _ h h1.1 hvalid

theorem nodup_flatMap_pairwise {α β : Type} {l : List α} {f : α → List β}
    (h : (l.flatMap f).Nodup) :
    List.Pairwise (fun a b => ∀ i ∈ f a, ¬ i ∈ f b) l := by
  induction l with
  | nil => constructor
  | cons a rest ih =>
    rw [List.flatMap_cons, List.nodup_append] at h
    constructor
    · intro b hb i hi hib
      exact h.2.2 hi (List.mem_flatMap.mpr ⟨b, hb, hib⟩)
    · exact ih h.2.1

/-! ### Plan-level claim theorems (C1, C3, C9) -/

/-- C1 (amended): for every input with distinct action ids on which
`plan_parallel_actions` returns a result, every assignment of an action with
at least one dependency has a stage strictly greater than the stage of the
assignment of AT LEAST ONE of its dependencies (not of each: the recursive
cascade gives a child the triggering parent's stage plus one, which can tie
with another dependency's stage). -/
theorem claim_C1_amended :
    ∀ fuel (actions : List Action) (agents : List Agent) h0 r hh,
      (actions.map (fun a => a.id)).Nodup →
      plan_parallel_actions fuel actions agents h0 = some (.ok (r, hh)) →
      ∀ asg ∈ allAsgs r.stages, ∀ act,
        actions.find? (fun a => a.id = asg.action_id) = some act →
        act.depends_on ≠ [] →
        ∃ d ∈ act.depends_on, ∃ asg2 ∈ allAsgs r.stages,
          asg2.action_id = d ∧ asg2.stage < asg.stage := by
  intro fuel actions agents h0 r hh hN hplan asg hasg act hact hdeps
  obtain ⟨st, hInv, hempty, hstages⟩ := plan_ok_state hplan
  rw [hstages] at hasg ⊢
  obtain ⟨d, hd, sd, hsd, hlt⟩ := hInv.depOK hN asg hasg act hact hdeps
  have hp : (d, sd) ∈ st.assigned_actions := alookup_mem hsd
  have hcount := hInv.countOK (d, sd) hp
  have hex : ∃ asg2 ∈ allAsgs st.stage_assignments, asg2.action_id = d := by
    unfold countId at hcount
    rcases hfil : (allAsgs st.stage_assignments).filter
        (fun a2 => a2.action_id = (d, sd).1) with _ | ⟨x, xs⟩
    · rw [hfil] at hcount
      cases hcount
    · have hx : x ∈ (allAsgs st.stage_assignments).filter
          (fun a2 => a2.action_id = (d, sd).1) := by
        rw [hfil]
        exact List.mem_cons_self _ _
      have h2 := List.mem_filter.mp hx
      exact ⟨x, h2.1, by simpa using h2.2⟩
  obtain ⟨asg2, hasg2, hid2⟩ := hex
  have hst2 : asg2.stage = sd := by
    have h3 := hInv.lookupOK asg2 hasg2
    rw [hid2] at h3
    exact Option.some.inj (h3.symm.trans hsd)
  exact ⟨d, hd, asg2, hasg2, hid2, by rw [hst2]; exact hlt⟩

/-- C3: in every result of `plan_parallel_actions` over a roster with
distinct agent ids (per the data model), the agent-id lists of the
assignments within one stage are pairwise disjoint. -/
theorem claim_C3_stage_disjoint :
    ∀ fuel (actions : List Action) (agents : List Agent) h0 r hh,
      (agents.map (fun a => a.id)).Nodup →
      plan_parallel_actions fuel actions agents h0 = some (.ok (r, hh)) →
      stages_agents_disjoint r := by
  intro fuel actions agents h0 r hh hag hplan
  obtain ⟨st, hInv, hempty, hstages⟩ := plan_ok_state hplan
  intro p hp
  rw [hstages] at hp
  exact nodup_flatMap_pairwise (hInv.disjointAg hag p hp)

/-- C9: (1) when `plan_parallel_actions` returns a result, every input
action id is covered by exactly one assignment and every assignment belongs
to an input action id; (2) when it raises the starvation exception, the
reported set is a nonempty set of still-unassigned input action ids, each
blocked by a dependency that is itself in the set; (3) the fallback scan
raises exactly that exception, carrying exactly the unassigned ids, as soon
as unassigned actions remain but none has all dependencies assigned. -/
theorem claim_C9_complete_or_starved :
    (∀ fuel (actions : List Action) (agents : List Agent) h0 r hh,
      plan_parallel_actions fuel actions agents h0 = some (.ok (r, hh)) →
      (∀ i ∈ actions.map (fun a => a.id), countId r.stages i = 1) ∧
      (∀ asg ∈ allAsgs r.stages, asg.action_id ∈ actions.map (fun a => a.id))) ∧
    (∀ fuel (actions : List Action) (agents : List Agent) h0 ids,
      plan_parallel_actions fuel actions agents h0
        = some (.error (.unableToSchedule ids)) →
      ids ≠ [] ∧ ∀ i ∈ ids, ∃ a, a ∈ actionDictValues actions ∧ a.id = i ∧
        ∃ d ∈ a.depends_on, d ∈ ids) ∧
    (∀ (agents : List Agent) (rd : String → List Action) (dc : String → Nat)
      fuel (st : SchedState), st.unassigned ≠ [] → fallback_available st = [] →
      fallback agents rd dc (fuel + 1) st
        = some (.error (.unableToSchedule (st.unassigned.map (fun a => a.id))))) := by
  refine ⟨?_, ?_, ?_⟩
  · intro fuel actions agents h0 r hh hplan
    obtain ⟨st, hInv, hempty, hstages⟩ := plan_ok_state hplan
    constructor
    · intro i hi
      obtain ⟨a, ha, haid⟩ := exists_value_of_id hi
      obtain ⟨s, hs⟩ : ∃ s, alookup st.assigned_actions a.id = some s := by
        rcases hl : alookup st.assigned_actions a.id with _ | s
        · exfalso
          have h2 : a ∈ st.unassigned := by
            rw [hInv.uA]
            refine List.mem_filter.mpr ⟨ha, ?_⟩
            rw [hl]
            rfl
          rw [hempty] at h2
          cases h2
        · exact ⟨s, rfl⟩
      have hcount := hInv.countOK (a.id, s) (alookup_mem hs)
      rw [hstages, ← haid]
      exact hcount
    · intro asg hasg
      rw [hstages] at hasg
      have h1 := hInv.lookupOK asg hasg
      exact hInv.aIds (asg.action_id, asg.stage) (alookup_mem h1)
  · intro fuel actions agents h0 ids hplan
    unfold plan_parallel_actions at hplan
    split at hplan
    · cases hplan
    · rename_i e hval
      have h2 := Except.error.inj (Option.some.inj hplan)
      rcases validate_error_shape hval with ⟨a, d, he⟩ | ⟨a, he⟩ <;>
        · rw [he] at h2
          cases h2
    · rename_i hval
      simp only [] at hplan
      split at hplan
      · cases hplan
      · rename_i e hroots
        have h2 := Except.error.inj (Option.some.inj hplan)
        have h3 := run_roots_error _ _ _ hroots
        rw [h3] at h2
        cases h2
      · rename_i st1 hroots
        split at hplan
        · cases hplan
        · rename_i e hfall
          have h2 := Except.error.inj (Option.some.inj hplan)
          rw [h2] at hfall
          have hroots_pre : ∀ t ∈ sortDesc (fun a => dependency_count actions a.id)
              (actions.filter (fun a => a.depends_on.isEmpty ∧ a.type = "fetch")),
              t ∈ actions ∧ t.depends_on = [] := by
            intro t ht
            rw [mem_sortDesc] at ht
            have h4 := List.mem_filter.mp ht
            refine ⟨h4.1, ?_⟩
            have h5 := h4.2
            simp only [decide_eq_true_eq] at h5
            exact List.isEmpty_iff.mp h5.1
          have hInv1 := (run_roots_inv actions agents (dependency_count actions)
            fuel _ _ _ hroots (inv_initial actions agents h0) hroots_pre).1
          have hvalid := findMissing_none_iff.mp (validate_ok_no_missing hval)
          exact fallback_starved actions agents (dependency_count actions)
            fuel st1 ids hfall hInv1 hvalid
        · cases hplan
  · intro agents rd dc fuel st hne hav
    simp only [fallback]
    rw [if_neg (fun he => hne (List.isEmpty_iff.mp he))]
    rw [if_pos (by rw [hav]; rfl)]

/-! ### The `max` field never affects the result (C4) -/

/-- Replace the `reqMax` field (the `"max"` entry of `required_agents`,
which the source never reads) by an arbitrary value. -/
def setMax (f : Action → Nat) (a : Action) : Action :=
  { a with reqMax := f a }

/-- Apply `setMax` to the unassigned actions of a planner state (the only
state component holding whole `Action` values). -/
def mapUn (f : Action → Nat) (st : SchedState) : SchedState :=
  { st with unassigned := st.unassigned.map (setMax f) }

/-- Apply `setMax` to the actions inside a `schedule_task` job. -/
def mapJob (f : Action → Nat) : SchedJob → SchedJob
  | .task t d => .task (setMax f t) d
  | .kids cs s => .kids (cs.map (setMax f)) s

theorem setMax_id (f : Action → Nat) (a : Action) : (setMax f a).id = a.id := rfl

theorem setMax_type (f : Action → Nat) (a : Action) : (setMax f a).type = a.type := rfl

theorem setMax_depends_on (f : Action → Nat) (a : Action) :
    (setMax f a).depends_on = a.depends_on := rfl

theorem mapUn_handler (f : Action → Nat) (st : SchedState) :
    (mapUn f st).handler = st.handler := rfl

theorem mapUn_sa (f : Action → Nat) (st : SchedState) :
    (mapUn f st).stage_assignments = st.stage_assignments := rfl

theorem mapUn_aa (f : Action → Nat) (st : SchedState) :
    (mapUn f st).assigned_actions = st.assigned_actions := rfl

theorem mapUn_un (f : Action → Nat) (st : SchedState) :
    (mapUn f st).unassigned = st.unassigned.map (setMax f) := rfl

theorem isEmpty_map {α β : Type} (g : α → β) (l : List α) :
    (l.map g).isEmpty = l.isEmpty := by
  cases l <;> rfl

theorem schedule_attempt_setMax (f : Action → Nat) (task : Action) (stage : Nat)
    (sa : List (Nat × List ActionAssignment)) (ag : List Agent)
    (h : List (String × Agent)) :
    schedule_attempt (setMax f task) stage sa ag h = schedule_attempt task stage sa ag h := rfl

theorem stage_search_setMax (f : Action → Nat) (ag : List Agent)
    (h : List (String × Agent)) (sa : List (Nat × List ActionAssignment)) :
    ∀ fuel task s,
      stage_search ag h sa fuel (setMax f task) s = stage_search ag h sa fuel task s := by
  intro fuel
  induction fuel with
  | zero => intro task s; rfl
  | succ fuel ih =>
    intro task s
    simp only [stage_search, schedule_attempt_setMax]
    cases schedule_attempt task s sa ag h
    · exact ih task (s + 1)
    · rfl

theorem update_object_tracking_setMax (f : Action → Nat) (t : Action)
    (assigned : List Agent) (h : List (String × Agent)) :
    update_object_tracking (setMax f t) assigned h = update_object_tracking t assigned h := rfl

theorem desiredStage_setMax (f : Action → Nat) (st : SchedState) (t : Action) :
    desiredStage (mapUn f st) (setMax f t) = desiredStage st t := rfl

theorem recordAssignment_setMax (f : Action → Nat) (t : Action)
    (assigned : List Agent) (stage : Nat) (st : SchedState) :
    recordAssignment (setMax f t) assigned stage (mapUn f st)
      = mapUn f (recordAssignment t assigned stage st) := by
  simp only [recordAssignment, mapUn, List.filter_map]
  rfl

theorem insertDesc_map {α β : Type} (g : α → β) (key : β → Nat) (key0 : α → Nat)
    (hk : ∀ a, key (g a) = key0 a) (x : α) :
    ∀ l : List α, insertDesc key (g x) (l.map g) = (insertDesc key0 x l).map g := by
  intro l
  induction l with
  | nil => rfl
  | cons y ys ih =>
    simp only [List.map_cons, insertDesc, hk, apply_ite (List.map g), ih]

theorem sortDesc_map {α β : Type} (g : α → β) (key : β → Nat) (key0 : α → Nat)
    (hk : ∀ a, key (g a) = key0 a) (l : List α) :
    sortDesc key (l.map g) = (sortDesc key0 l).map g := by
  have main : ∀ (l : List α) (acc : List α),
      (l.map g).foldl (fun acc x => insertDesc key x acc) (acc.map g)
        = (l.foldl (fun acc x => insertDesc key0 x acc) acc).map g := by
    intro l
    induction l with
    | nil => intro acc; rfl
    | cons x xs ih =>
      intro acc
      simp only [List.map_cons, List.foldl_cons]
      rw [insertDesc_map g key key0 hk x acc]
      exact ih (insertDesc key0 x acc)

  exact main l []

theorem any_key_map {κ α β : Type} [DecidableEq κ] (g : α → β) (l : List (κ × α)) (k : κ) :
    (l.map (fun p => (p.1, g p.2))).any (fun p => p.1 = k) = l.any (fun p => p.1 = k) := by
  induction l with
  | nil => rfl
  | cons p rest ih => simp [ih]

theorem dictInsert_mapVal {κ α β : Type} [DecidableEq κ] (g : α → β)
    (l : List (κ × α)) (k : κ) (v : α) :
    dictInsert (l.map (fun p => (p.1, g p.2))) k (g v)
      = (dictInsert l k v).map (fun p => (p.1, g p.2)) := by
  simp only [dictInsert, any_key_map]
  by_cases hc : l.any (fun p => p.1 = k) = true
  · rw [if_pos hc, if_pos hc]
    rw [List.map_map, List.map_map]
    refine List.map_congr_left ?_
    intro p hp
    by_cases hpk : p.1 = k
    · simp [Function.comp, hpk]
    · simp [Function.comp, hpk]
  · rw [if_neg hc, if_neg hc]
    simp

theorem actionDict_setMax (f : Action → Nat) :
    ∀ (l : List Action) (acc : List (String × Action)),
      (l.map (setMax f)).foldl (fun d a => dictInsert d a.id a)
          (acc.map (fun p => (p.1, setMax f p.2)))
        = (l.foldl (fun d a => dictInsert d a.id a) acc).map
            (fun p => (p.1, setMax f p.2)) := by
  intro l
  induction l with
  | nil => intro acc; rfl
  | cons a rest ih =>
    intro acc
    simp only [List.map_cons, List.foldl_cons, setMax_id]
    rw [dictInsert_mapVal (setMax f) acc a.id a]
    exact ih (dictInsert acc a.id a)

theorem actionDictValues_setMax (f : Action → Nat) (l : List Action) :
    actionDictValues (l.map (setMax f)) = (actionDictValues l).map (setMax f) := by
  unfold actionDictValues actionDict
  have h : (l.map (setMax f)).foldl (fun d a => dictInsert d a.id a) []
      = (l.foldl (fun d a => dictInsert d a.id a) []).map (fun p => (p.1, setMax f p.2)) :=
    actionDict_setMax f l []
  rw [h]
  simp only [List.map_map]
  rfl

theorem any_id_setMax (f : Action → Nat) (actions : List Action) (dep : String) :
    (actions.map (setMax f)).any (fun x => x.id = dep)
      = actions.any (fun x => x.id = dep) := by
  rw [List.any_map]
  rfl

theorem findMissing_setMax (f : Action → Nat) (actions : List Action) :
    findMissing (actions.map (setMax f)) = findMissing actions := by
  unfold findMissing
  rw [List.findSome?_map]
  simp only [any_id_setMax]
  rfl

theorem depsOf_setMax (f : Action → Nat) (actions : List Action) (aid : String) :
    depsOf (actions.map (setMax f)) aid = depsOf actions aid := by
  unfold depsOf
  rw [List.find?_map, Option.map_map]
  rfl

theorem has_cycle_setMax (f : Action → Nat) (actions : List Action) :
    ∀ fuel job visited path,
      has_cycle (actions.map (setMax f)) fuel job visited path
        = has_cycle actions fuel job visited path := by
  intro fuel
  induction fuel with
  | zero => intro job v p; rfl
  | succ fuel ih =>
    intro job v p
    cases job with
    | node aid => simp only [has_cycle, depsOf_setMax, ih]
    | deps ds =>
      rcases ds with _ | ⟨x, xs⟩
      · rfl
      · simp only [has_cycle, ih]

theorem cycle_scan_setMax (f : Action → Nat) (actions : List Action) (fuel : Nat) :
    ∀ ts visited,
      cycle_scan (actions.map (setMax f)) fuel (ts.map (setMax f)) visited
        = cycle_scan actions fuel ts visited := by
  intro ts
  induction ts with
  | nil => intro v; rfl
  | cons a rest ih =>
    intro v
    simp only [List.map_cons, cycle_scan, setMax_id, has_cycle_setMax, ih]

theorem validate_setMax (f : Action → Nat) (fuel : Nat) (actions : List Action) :
    validate_dependencies fuel (actions.map (setMax f))
      = validate_dependencies fuel actions := by
  unfold validate_dependencies
  rw [findMissing_setMax]
  cases findMissing actions
  · exact cycle_scan_setMax f actions fuel actions []
  · rfl

theorem reverse_dependencies_setMax (f : Action → Nat) (actions : List Action)
    (dep : String) :
    reverse_dependencies (actions.map (setMax f)) dep
      = (reverse_dependencies actions dep).map (setMax f) := by
  unfold reverse_dependencies
  induction actions with
  | nil => rfl
  | cons a rest ih =>
    simp only [List.map_cons, List.flatMap_cons, ih, List.map_append, List.map_map]
    rfl

theorem dependency_count_setMax (f : Action → Nat) (actions : List Action)
    (aid : String) :
    dependency_count (actions.map (setMax f)) aid = dependency_count actions aid := by
  unfold dependency_count
  rw [reverse_dependencies_setMax, List.length_map]

theorem schedule_task_setMax (ag : List Agent) (rd rd' : String → List Action)
    (dc dc' : String → Nat) (f : Action → Nat)
    (hrd : ∀ i, rd' i = (rd i).map (setMax f)) (hdc : ∀ i, dc' i = dc i) :
    ∀ fuel job st,
      schedule_task ag rd' dc' fuel (mapJob f job) (mapUn f st)
        = (schedule_task ag rd dc fuel job st).map (fun r => r.map (mapUn f)) := by
  intro fuel
  induction fuel with
  | zero => intro job st; rfl
  | succ fuel ih =>
    intro job st
    cases job with
    | task t d =>
      simp only [mapJob, schedule_task, mapUn_handler, mapUn_sa, stage_search_setMax]
      rcases hss : stage_search ag st.handler st.stage_assignments (fuel + 1) t d
        with _ | ⟨assigned, stage⟩
      · rfl
      · simp only []
        rw [recordAssignment_setMax]
        simp only [mapUn_handler, update_object_tracking_setMax]
        rcases hu : update_object_tracking t assigned
            (recordAssignment t assigned stage st).handler with e | h
        · rfl
        · simp only [setMax_id, hrd]
          rw [sortDesc_map (setMax f) (fun a => dc' a.id) (fun a => dc a.id)
            (fun a => hdc a.id)]
          exact ih (.kids (sortDesc (fun a => dc a.id) (rd t.id)) stage)
            { recordAssignment t assigned stage st with handler := h }
    | kids cs s =>
      rcases cs with _ | ⟨c, cs⟩
      · rfl
      · simp only [mapJob, List.map_cons, schedule_task, mapUn_un, mapUn_aa,
          setMax_id, setMax_depends_on, any_id_setMax]
        by_cases hc : (st.unassigned.any (fun a => a.id = c.id)) = true ∧
            (c.depends_on.all (fun dep => (alookup st.assigned_actions dep).isSome)) = true
        · rw [if_pos hc, if_pos hc]
          have h1 : schedule_task ag rd' dc' fuel (.task (setMax f c) (s + 1)) (mapUn f st)
              = (schedule_task ag rd dc fuel (.task c (s + 1)) st).map
                  (fun r => r.map (mapUn f)) :=
            ih (.task c (s + 1)) st
          rw [h1]
          rcases hin : schedule_task ag rd dc fuel (.task c (s + 1)) st with _ | r
          · rfl
          · rcases r with e | st2
            · rfl
            · exact ih (.kids cs s) st2
        · rw [if_neg hc, if_neg hc]
          exact ih (.kids cs s) st

theorem run_roots_setMax (ag : List Agent) (rd rd' : String → List Action)
    (dc dc' : String → Nat) (f : Action → Nat)
    (hrd : ∀ i, rd' i = (rd i).map (setMax f)) (hdc : ∀ i, dc' i = dc i) (fuel : Nat) :
    ∀ ts st,
      run_roots ag rd' dc' fuel (ts.map (setMax f)) (mapUn f st)
        = (run_roots ag rd dc fuel ts st).map (fun r => r.map (mapUn f)) := by
  intro ts
  induction ts with
  | nil => intro st; rfl
  | cons t rest ih =>
    intro st
    simp only [List.map_cons, run_roots, mapUn_un, setMax_id, any_id_setMax]
    by_cases hc : (st.unassigned.any (fun a => a.id = t.id)) = true
    · rw [if_pos hc, if_pos hc]
      have h1 : schedule_task ag rd' dc' fuel (.task (setMax f t) 1) (mapUn f st)
          = (schedule_task ag rd dc fuel (.task t 1) st).map (fun r => r.map (mapUn f)) :=
        schedule_task_setMax ag rd rd' dc dc' f hrd hdc fuel (.task t 1) st
      rw [h1]
      rcases hin : schedule_task ag rd dc fuel (.task t 1) st with _ | r
      · rfl
      · rcases r with e | st2
        · rfl
        · exact ih st2
    · rw [if_neg hc, if_neg hc]
      exact ih st

theorem fallback_for_setMax (ag : List Agent) (rd rd' : String → List Action)
    (dc dc' : String → Nat) (f : Action → Nat)
    (hrd : ∀ i, rd' i = (rd i).map (setMax f)) (hdc : ∀ i, dc' i = dc i) (fuel : Nat) :
    ∀ ts st,
      fallback_for ag rd' dc' fuel (ts.map (setMax f)) (mapUn f st)
        = (fallback_for ag rd dc fuel ts st).map (fun r => r.map (mapUn f)) := by
  intro ts
  induction ts with
  | nil => intro st; rfl
  | cons t rest ih =>
    intro st
    simp only [List.map_cons, fallback_for, mapUn_un, setMax_id, any_id_setMax]
    by_cases hc : (st.unassigned.any (fun a => a.id = t.id)) = true
    · rw [if_pos hc, if_pos hc]
      rw [desiredStage_setMax]
      rcases hd : desiredStage st t with e | desired
      · rfl
      · simp only []
        have h1 : schedule_task ag rd' dc' fuel (.task (setMax f t) desired) (mapUn f st)
            = (schedule_task ag rd dc fuel (.task t desired) st).map
                (fun r => r.map (mapUn f)) :=
          schedule_task_setMax ag rd rd' dc dc' f hrd hdc fuel (.task t desired) st
        rw [h1]
        rcases hin : schedule_task ag rd dc fuel (.task t desired) st with _ | r
        · rfl
        · rcases r with e | st2
          · rfl
          · exact ih st2
    · rw [if_neg hc, if_neg hc]
      exact ih st

theorem fallback_available_setMax (f : Action → Nat) (st : SchedState) :
    fallback_available (mapUn f st) = (fallback_available st).map (setMax f) := by
  unfold fallback_available
  simp only [mapUn_un, mapUn_aa, List.filter_map]
  rfl

theorem fallback_setMax (ag : List Agent) (rd rd' : String → List Action)
    (dc dc' : String → Nat) (f : Action → Nat)
    (hrd : ∀ i, rd' i = (rd i).map (setMax f)) (hdc : ∀ i, dc' i = dc i) :
    ∀ fuel st,
      fallback ag rd' dc' fuel (mapUn f st)
        = (fallback ag rd dc fuel st).map (fun r => r.map (mapUn f)) := by
  intro fuel
  induction fuel with
  | zero =>
    intro st
    simp only [fallback, mapUn_un, isEmpty_map]
    by_cases hc : st.unassigned.isEmpty = true
    · rw [if_pos hc, if_pos hc]
      rfl
    · rw [if_neg hc, if_neg hc]
      rfl
  | succ fuel ih =>
    intro st
    simp only [fallback, mapUn_un, isEmpty_map]
    by_cases hc : st.unassigned.isEmpty = true
    · rw [if_pos hc, if_pos hc]
      rfl
    · rw [if_neg hc, if_neg hc]
      rw [fallback_available_setMax, isEmpty_map]
      by_cases hav : (fallback_available st).isEmpty = true
      · rw [if_pos hav, if_pos hav]
        simp only [List.map_map]
        rfl
      · rw [if_neg hav, if_neg hav]
        rw [sortDesc_map (setMax f) (fun a => dc' a.id) (fun a => dc a.id)
          (fun a => hdc a.id)]
        have h1 : fallback_for ag rd' dc' (fuel + 1)
            ((sortDesc (fun a => dc a.id) (fallback_available st)).map (setMax f))
            (mapUn f st)
            = (fallback_for ag rd dc (fuel + 1)
                (sortDesc (fun a => dc a.id) (fallback_available st)) st).map
                (fun r => r.map (mapUn f)) :=
          fallback_for_setMax ag rd rd' dc dc' f hrd hdc (fuel + 1)
            (sortDesc (fun a => dc a.id) (fallback_available st)) st
        rw [h1]
        rcases hin : fallback_for ag rd dc (fuel + 1)
            (sortDesc (fun a => dc a.id) (fallback_available st)) st with _ | r
        · rfl
        · rcases r with e | st2
          · rfl
          · exact ih st2

theorem plan_parallel_actions_setMax (f : Action → Nat) (fuel : Nat)
    (actions : List Action) (ag : List Agent) (h0 : List (String × Agent)) :
    plan_parallel_actions fuel (actions.map (setMax f)) ag h0
      = plan_parallel_actions fuel actions ag h0 := by
  have hrd : ∀ i, reverse_dependencies (actions.map (setMax f)) i
      = (reverse_dependencies actions i).map (setMax f) :=
    fun i => reverse_dependencies_setMax f actions i
  have hdc : ∀ i, dependency_count (actions.map (setMax f)) i
      = dependency_count actions i :=
    fun i => dependency_count_setMax f actions i
  have hdeps : (actions.map (setMax f)).foldl
      (fun d a => dictInsert d a.id a.depends_on) []
      = actions.foldl (fun d a => dictInsert d a.id a.depends_on) [] := by
    rw [List.foldl_map]
    rfl
  have hroots : (actions.map (setMax f)).filter
      (fun a => a.depends_on.isEmpty ∧ a.type = "fetch")
      = (actions.filter (fun a => a.depends_on.isEmpty ∧ a.type = "fetch")).map
          (setMax f) := by
    rw [List.filter_map]
    rfl
  simp only [plan_parallel_actions, validate_setMax]
  rcases hv : validate_dependencies fuel actions with _ | r
  · rfl
  · rcases r with e | u
    · rfl
    · cases u
      simp only []
      rw [hroots, sortDesc_map (setMax f)
        (fun a => dependency_count (actions.map (setMax f)) a.id)
        (fun a => dependency_count actions a.id) (fun a => hdc a.id),
        actionDictValues_setMax]
      have h1 : run_roots ag (reverse_dependencies (actions.map (setMax f)))
          (dependency_count (actions.map (setMax f))) fuel
          ((sortDesc (fun a => dependency_count actions a.id)
            (actions.filter (fun a => a.depends_on.isEmpty ∧ a.type = "fetch"))).map
              (setMax f))
          ⟨[], [], (actionDictValues actions).map (setMax f), h0⟩
          = (run_roots ag (reverse_dependencies actions) (dependency_count actions) fuel
              (sortDesc (fun a => dependency_count actions a.id)
                (actions.filter (fun a => a.depends_on.isEmpty ∧ a.type = "fetch")))
              ⟨[], [], actionDictValues actions, h0⟩).map
              (fun r => r.map (mapUn f)) :=
        run_roots_setMax ag (reverse_dependencies actions)
          (reverse_dependencies (actions.map (setMax f)))
          (dependency_count actions) (dependency_count (actions.map (setMax f)))
          f hrd hdc fuel
          (sortDesc (fun a => dependency_count actions a.id)
            (actions.filter (fun a => a.depends_on.isEmpty ∧ a.type = "fetch")))
          ⟨[], [], actionDictValues actions, h0⟩
      rw [h1]
      rcases hr : run_roots ag (reverse_dependencies actions) (dependency_count actions)
          fuel (sortDesc (fun a => dependency_count actions a.id)
            (actions.filter (fun a => a.depends_on.isEmpty ∧ a.type = "fetch")))
          ⟨[], [], actionDictValues actions, h0⟩ with _ | r1
      · rfl
      · rcases r1 with e | st1
        · rfl
        · simp only [Option.map_some', Except.map]
          have h2 : fallback ag (reverse_dependencies (actions.map (setMax f)))
              (dependency_count (actions.map (setMax f))) fuel (mapUn f st1)
              = (fallback ag (reverse_dependencies actions) (dependency_count actions)
                  fuel st1).map (fun r => r.map (mapUn f)) :=
            fallback_setMax ag (reverse_dependencies actions)
              (reverse_dependencies (actions.map (setMax f)))
              (dependency_count actions) (dependency_count (actions.map (setMax f)))
              f hrd hdc fuel st1
          rw [h2]
          rcases hf : fallback ag (reverse_dependencies actions)
              (dependency_count actions) fuel st1 with _ | r2
          · rfl
          · rcases r2 with e | st2
            · rfl
            · simp only [Option.map_some', Except.map, mapUn_sa, mapUn_handler]
              rw [hdeps]

/-- The chair-demo action `"7"`, extracted for witness statements. -/
def chairAct7 : Action :=
  ⟨"7", "attach", ["chair_back", "chair_seat"],
    "Attach chair back and chair seat together", 1, 1, ["1", "2"], []⟩

theorem claim_C1_amended_witness :
    ((chairActions.map (fun a => a.id)).Nodup ∧
     plan_parallel_actions 40 chairActions chairAgents [] =
       some (.ok (chairExpected, chairHandlerFinal)) ∧
     (⟨"7", [agA], 2, "Attach chair back and chair seat together"⟩ : ActionAssignment)
       ∈ allAsgs chairExpected.stages ∧
     chairActions.find? (fun a => a.id = "7") = some chairAct7 ∧
     chairAct7.depends_on ≠ []) ∧
    (∃ d ∈ chairAct7.depends_on, ∃ asg2 ∈ allAsgs chairExpected.stages,
      asg2.action_id = d ∧ asg2.stage < 2) :=
  ⟨⟨by decide, rfl, by decide, by decide, by decide⟩,
   claim_C1_amended 40 chairActions chairAgents [] chairExpected chairHandlerFinal
     (by decide) rfl
     ⟨"7", [agA], 2, "Attach chair back and chair seat together"⟩ (by decide)
     chairAct7 (by decide) (by decide)⟩

theorem claim_C3_stage_disjoint_witness :
    (chairAgents.map (fun a => a.id)).Nodup ∧ stages_agents_disjoint chairExpected :=
  ⟨by decide, claim_C3_stage_disjoint 40 chairActions chairAgents [] chairExpected
    chairHandlerFinal (by decide) rfl⟩

/-! ### Correctness of the DFS cycle detection (C5) -/

/-- The dependency edge the DFS actually follows: `j` is among the
dependencies `depsOf` reads for id `i` (the first action named `i`). -/
def Edge (actions : List Action) (i j : String) : Prop :=
  j ∈ depsOf actions i

/-- The dependency relation on action identifiers as the spec describes it:
some action named `i` lists `j` among its dependencies. -/
def EdgeSpec (actions : List Action) (i j : String) : Prop :=
  ∃ a ∈ actions, a.id = i ∧ j ∈ a.depends_on

/-- No cycle of the dependency relation is reachable from `i`. -/
def SafeFrom (actions : List Action) (i : String) : Prop :=
  ¬ ∃ j, Relation.ReflTransGen (Edge actions) i j ∧
    Relation.TransGen (Edge actions) j j

theorem edgeSpec_iff_edge {actions : List Action}
    (hN : (actions.map (fun a => a.id)).Nodup) (i j : String) :
    EdgeSpec actions i j ↔ Edge actions i j := by
  constructor
  · rintro ⟨a, ha, rfl, hj⟩
    unfold Edge depsOf
    rw [find?_id_of_nodup ha hN]
    exact hj
  · intro h
    unfold Edge depsOf at h
    rcases hf : actions.find? (fun x => x.id = i) with _ | x
    · rw [hf] at h
      simp at h
    · rw [hf] at h
      simp only [Option.map_some', Option.getD_some] at h
      have hx := List.mem_of_find?_eq_some hf
      have hxi : x.id = i := by
        have h2 := List.find?_some hf
        simpa using h2
      exact ⟨x, hx, hxi, h⟩

theorem chain_mem_transGen {R : String → String → Prop} :
    ∀ (rest : List String) (p0 : String),
      List.Chain' (fun a b => R b a) (p0 :: rest) →
      ∀ d ∈ p0 :: rest, d = p0 ∨ Relation.TransGen R d p0 := by
  intro rest
  induction rest with
  | nil =>
    intro p0 hch d hd
    rcases List.mem_singleton.mp hd with rfl
    exact Or.inl rfl
  | cons p1 rest2 ih =>
    intro p0 hch d hd
    have h10 : R p1 p0 := (List.chain'_cons.mp hch).1
    have hch2 := (List.chain'_cons.mp hch).2
    rcases List.mem_cons.mp hd with rfl | hd2
    · exact Or.inl rfl
    · rcases ih p1 hch2 d hd2 with rfl | htg
      · exact Or.inr (Relation.TransGen.single h10)
      · exact Or.inr (htg.tail h10)

/-- Soundness of the DFS: a `True` return with a well-formed path exhibits a
dependency cycle. -/
theorem has_cycle_sound {actions : List Action} :
    ∀ fuel job visited path v,
      has_cycle actions fuel job visited path = some (true, v) →
      List.Chain' (fun a b => Edge actions b a) path →
      (match job with
       | .node d => ∀ p0, path.head? = some p0 → Edge actions p0 d
       | .deps ds => ∃ p0, path.head? = some p0 ∧ ∀ d ∈ ds, Edge actions p0 d) →
      ∃ i, Relation.TransGen (Edge actions) i i := by
  intro fuel
  induction fuel with
  | zero =>
    intro job visited path v h
    cases h
  | succ fuel ih =>
    intro job visited path v h hch hjob
    cases job with
    | node d =>
      simp only [has_cycle] at h
      split at h
      · rename_i hdp
        rcases path with _ | ⟨p0, rest⟩
        · exact absurd hdp (List.not_mem_nil d)
        · have hp0d : Edge actions p0 d := hjob p0 rfl
          rcases chain_mem_transGen rest p0 hch d hdp with rfl | htg
          · exact ⟨d, Relation.TransGen.single hp0d⟩
          · exact ⟨d, htg.tail hp0d⟩
      · split at h
        · simp at h
        · apply ih _ _ _ _ h
          · rcases path with _ | ⟨p0, rest⟩
            · simp
            · exact List.chain'_cons.mpr ⟨hjob p0 rfl, hch⟩
          · exact ⟨d, rfl, fun x hx => hx⟩
    | deps ds =>
      rcases ds with _ | ⟨x, xs⟩
      · simp [has_cycle] at h
      · simp only [has_cycle] at h
        obtain ⟨p0, hp0, hds⟩ := hjob
        split at h
        · cases h
        · rename_i v1 hx
          refine ih (.node x) visited path v1 hx hch ?_
          intro q hq
          rw [hp0] at hq
          cases hq
          exact hds x (List.mem_cons_self x xs)
        · rename_i v1 hx
          exact ih (.deps xs) v1 path v h hch
            ⟨p0, hp0, fun d hd => hds d (List.mem_cons_of_mem _ hd)⟩

theorem safeFrom_of_succ {actions : List Action} {i : String}
    (h : ∀ j, Edge actions i j → SafeFrom actions j) : SafeFrom actions i := by
  rintro ⟨j, hij, hcyc⟩
  rcases Relation.ReflTransGen.cases_head hij with rfl | ⟨k, hik, hkj⟩
  · rcases Relation.TransGen.head'_iff.mp hcyc with ⟨k, hik, hki⟩
    exact h k hik ⟨i, hki, hcyc⟩
  · exact h k hik ⟨j, hkj, hcyc⟩

/-- Completeness invariant of the DFS: a `False` return grows the visited
set, keeps every off-path visited node safe, and certifies the processed
nodes safe. -/
theorem has_cycle_false_post {actions : List Action} :
    ∀ fuel job visited path v,
      has_cycle actions fuel job visited path = some (false, v) →
      (∀ i ∈ visited, i ∉ path → SafeFrom actions i) →
      (∀ i ∈ visited, i ∈ v) ∧ (∀ i ∈ v, i ∉ path → SafeFrom actions i) ∧
      (match job with
       | .node d => d ∈ v ∧ d ∉ path
       | .deps ds => ∀ x ∈ ds, SafeFrom actions x) := by
  intro fuel
  induction fuel with
  | zero =>
    intro job visited path v h
    cases h
  | succ fuel ih =>
    intro job visited path v h hpre
    cases job with
    | node d =>
      simp only [has_cycle] at h
      split at h
      · simp at h
      · rename_i hdp
        split at h
        · rename_i hdv
          simp only [Option.some.injEq, Prod.mk.injEq] at h
          obtain ⟨-, rfl⟩ := h
          exact ⟨fun i hi => hi, hpre, hdv, hdp⟩
        · have hpre2 : ∀ i ∈ d :: visited, i ∉ d :: path → SafeFrom actions i := by
            intro i hi hip
            rcases List.mem_cons.mp hi with rfl | hiv
            · exact absurd (List.mem_cons_self i path) hip
            · exact hpre i hiv (fun hipath => hip (List.mem_cons_of_mem _ hipath))
          obtain ⟨hsub, hsafe, hds⟩ := ih _ _ _ _ h hpre2
          refine ⟨fun i hi => hsub i (List.mem_cons_of_mem _ hi), ?_,
            hsub d (List.mem_cons_self d visited), hdp⟩
          intro i hi hip
          by_cases hid : i = d
          · subst hid
            exact safeFrom_of_succ (fun j hj => hds j hj)
          · refine hsafe i hi ?_
            intro hmem
            rcases List.mem_cons.mp hmem with rfl | hmem2
            · exact hid rfl
            · exact hip hmem2
    | deps ds =>
      rcases ds with _ | ⟨x, xs⟩
      · simp only [has_cycle, Option.some.injEq, Prod.mk.injEq] at h
        obtain ⟨-, rfl⟩ := h
        exact ⟨fun i hi => hi, hpre, fun y hy => absurd hy (List.not_mem_nil y)⟩
      · simp only [has_cycle] at h
        split at h
        · cases h
        · simp at h
        · rename_i v1 hx
          obtain ⟨hsub1, hsafe1, hxv, hxp⟩ := ih (.node x) visited path v1 hx hpre
          obtain ⟨hsub2, hsafe2, hxs⟩ := ih (.deps xs) v1 path v h hsafe1
          refine ⟨fun i hi => hsub2 i (hsub1 i hi), hsafe2, ?_⟩
          intro y hy
          rcases List.mem_cons.mp hy with rfl | hy2
          · exact hsafe1 y hxv hxp
          · exact hxs y hy2

theorem cycle_scan_ok {actions : List Action} {fuel : Nat} :
    ∀ ts visited, cycle_scan actions fuel ts visited = some (.ok ()) →
      (∀ i ∈ visited, SafeFrom actions i) →
      ∀ a ∈ ts, SafeFrom actions a.id := by
  intro ts
  induction ts with
  | nil =>
    intro visited h hpre a ha
    cases ha
  | cons a rest ih =>
    intro visited h hpre b hb
    simp only [cycle_scan] at h
    split at h
    · rename_i hav
      rcases List.mem_cons.mp hb with rfl | hb2
      · exact hpre b.id hav
      · exact ih visited h hpre b hb2
    · split at h
      · cases h
      · simp at h
      · rename_i v hhc
        obtain ⟨hsub, hsafe, hav2, -⟩ :=
          has_cycle_false_post fuel (.node a.id) visited [] v hhc
            (fun i hi _ => hpre i hi)
        rcases List.mem_cons.mp hb with rfl | hb2
        · exact hsafe b.id hav2 (List.not_mem_nil _)
        · exact ih v h (fun i hi => hsafe i hi (List.not_mem_nil _)) b hb2

theorem cycle_scan_error_sound {actions : List Action} {fuel : Nat} :
    ∀ ts visited e, cycle_scan actions fuel ts visited = some (.error e) →
      ∃ i, Relation.TransGen (Edge actions) i i := by
  intro ts
  induction ts with
  | nil =>
    intro visited e h
    simp [cycle_scan] at h
  | cons a rest ih =>
    intro visited e h
    simp only [cycle_scan] at h
    split at h
    · exact ih _ _ h
    · split at h
      · cases h
      · rename_i v hhc
        exact has_cycle_sound fuel (.node a.id) visited [] v hhc
          List.chain'_nil (fun p0 hp0 => by cases hp0)
      · exact ih _ _ h

theorem no_cycle_of_scan_ok {actions : List Action} {fuel : Nat}
    (h : cycle_scan actions fuel actions [] = some (.ok ())) :
    ¬ ∃ i, Relation.TransGen (Edge actions) i i := by
  rintro ⟨i, hi⟩
  have hsafe := cycle_scan_ok actions [] h (fun j hj => absurd hj (List.not_mem_nil j))
  have first_edge : ∀ a b : String, Relation.TransGen (Edge actions) a b →
      ∃ c, Edge actions a c := by
    intro a b h2
    induction h2 with
    | single h1 => exact ⟨_, h1⟩
    | tail h1 h2 ih => exact ih
  obtain ⟨c, hic⟩ := first_edge i i hi
  unfold Edge depsOf at hic
  rcases hf : actions.find? (fun x => x.id = i) with _ | x
  · rw [hf] at hic
    simp at hic
  · have hx := List.mem_of_find?_eq_some hf
    have hxi : x.id = i := by
      have h2 := List.find?_some hf
      simpa using h2
    exact (hxi ▸ hsafe x hx) ⟨i, Relation.ReflTransGen.refl, hi⟩

/-- C5: whenever `validate_dependencies` finishes, it raises the missing-
dependency error exactly when some action lists a dependency id naming no
action of the input; and, when every dependency id exists and action ids are
unique (per the data model), it raises the cycle error exactly when the
dependency relation on action identifiers has a cycle, returning `ok`
exactly when it has none.  The embedding is state-free, so the input
collection is returned unmodified by construction. -/
theorem claim_C5_validate :
    ∀ fuel (actions : List Action) r,
      (actions.map (fun a => a.id)).Nodup →
      validate_dependencies fuel actions = some r →
      ((∃ i d, r = .error (.missingDep i d)) ↔
        ¬ ∀ a ∈ actions, ∀ dep ∈ a.depends_on, ∃ x ∈ actions, x.id = dep) ∧
      ((∀ a ∈ actions, ∀ dep ∈ a.depends_on, ∃ x ∈ actions, x.id = dep) →
        ((∃ i, r = .error (.cycleAt i)) ↔
          ∃ i, Relation.TransGen (EdgeSpec actions) i i) ∧
        (r = .ok () ↔ ¬ ∃ i, Relation.TransGen (EdgeSpec actions) i i)) := by
  intro fuel actions r hN hval
  have hTG : (∃ i, Relation.TransGen (EdgeSpec actions) i i) ↔
      (∃ i, Relation.TransGen (Edge actions) i i) := by
    constructor
    · rintro ⟨i, hi⟩
      exact ⟨i, Relation.TransGen.mono (fun a b hab => (edgeSpec_iff_edge hN a b).mp hab) hi⟩
    · rintro ⟨i, hi⟩
      exact ⟨i, Relation.TransGen.mono (fun a b hab => (edgeSpec_iff_edge hN a b).mpr hab) hi⟩
  unfold validate_dependencies at hval
  split at hval
  · rename_i aid dep hfm
    obtain rfl : r = .error (.missingDep aid dep) := (Option.some.inj hval).symm
    obtain ⟨a, ha, haid, hdep, hmiss⟩ := findMissing_some hfm
    constructor
    · constructor
      · intro _ hall
        exact hmiss (hall a ha dep hdep)
      · intro _
        exact ⟨aid, dep, rfl⟩
    · intro hall
      exact absurd (hall a ha dep hdep) hmiss
  · rename_i hfm
    have hnomiss : ∀ a ∈ actions, ∀ dep ∈ a.depends_on, ∃ x ∈ actions, x.id = dep :=
      findMissing_none_iff.mp hfm
    constructor
    · constructor
      · rintro ⟨i, d, rfl⟩
        obtain ⟨aid, he⟩ := cycle_scan_error _ _ _ hval
        cases he
      · intro hcon
        exact (hcon hnomiss).elim
    · intro _
      constructor
      · constructor
        · rintro ⟨i, rfl⟩
          exact hTG.mpr (cycle_scan_error_sound _ _ _ hval)
        · intro hcyc
          rcases r with e | u
          · obtain ⟨aid, rfl⟩ := cycle_scan_error _ _ _ hval
            exact ⟨aid, rfl⟩
          · cases u
            exact absurd (hTG.mp hcyc) (no_cycle_of_scan_ok hval)
      · constructor
        · intro hr
          subst hr
          intro hcyc
          exact absurd (hTG.mp hcyc) (no_cycle_of_scan_ok hval)
        · intro hnc
          rcases r with e | u
          · exact absurd (hTG.mpr (cycle_scan_error_sound _ _ _ hval)) hnc
          · cases u
            rfl

/-- C4: in every result over an input with distinct action ids (per the
data model), every assignment's agent list has length at least — in fact
exactly equal to — the action's minimum requirement, and contains only
agents without the constraint string forbidding the action's type; and
replacing the never-read `max` field of every action by arbitrary values
leaves the output of `plan_parallel_actions` unchanged. -/
theorem claim_C4_agent_lists :
    (∀ fuel (actions : List Action) (agents : List Agent) h0 r hh,
      (actions.map (fun a => a.id)).Nodup →
      plan_parallel_actions fuel actions agents h0 = some (.ok (r, hh)) →
      ∀ asg ∈ allAsgs r.stages, ∃ act,
        actions.find? (fun a => a.id = asg.action_id) = some act ∧
        act.reqMin ≤ asg.assigned_agents.length ∧
        asg.assigned_agents.length = act.reqMin ∧
        ∀ ag ∈ asg.assigned_agents, ¬ ("can't_" ++ act.type) ∈ ag.constraints) ∧
    (∀ (f : Action → Nat) fuel (actions : List Action) (agents : List Agent) h0,
      plan_parallel_actions fuel (actions.map (setMax f)) agents h0
        = plan_parallel_actions fuel actions agents h0) := by
  constructor
  · intro fuel actions agents h0 r hh hN hplan asg hasg
    obtain ⟨st, hInv, hempty, hstages⟩ := plan_ok_state hplan
    rw [hstages] at hasg
    obtain ⟨act, hfind, hlen, hcan⟩ := hInv.agentsOK hN asg hasg
    exact ⟨act, hfind, le_of_eq hlen.symm, hlen, fun ag hag => hcan ag hag⟩
  · intro f fuel actions agents h0
    exact plan_parallel_actions_setMax f fuel actions agents h0

theorem claim_C4_agent_lists_witness :
    ((chairActions.map (fun a => a.id)).Nodup ∧
     plan_parallel_actions 40 chairActions chairAgents [] =
       some (.ok (chairExpected, chairHandlerFinal)) ∧
     (⟨"8", [agC], 2, "Attach leg 1 to chair seat"⟩ : ActionAssignment)
       ∈ allAsgs chairExpected.stages) ∧
    (∃ act, chairActions.find? (fun a => a.id = "8") = some act ∧
      act.reqMin ≤ 1 ∧ 1 = act.reqMin ∧
      ∀ ag ∈ [agC], ¬ ("can't_" ++ act.type) ∈ ag.constraints) ∧
    plan_parallel_actions 40 (chairActions.map (setMax (fun _ => 5))) chairAgents []
      = plan_parallel_actions 40 chairActions chairAgents [] :=
  ⟨⟨by decide, rfl, by decide⟩,
   claim_C4_agent_lists.1 40 chairActions chairAgents [] chairExpected chairHandlerFinal
     (by decide) rfl ⟨"8", [agC], 2, "Attach leg 1 to chair seat"⟩ (by decide),
   claim_C4_agent_lists.2 (fun _ => 5) 40 chairActions chairAgents []⟩

theorem claim_C5_validate_witness :
    ((chairActions.map (fun a => a.id)).Nodup ∧
     validate_dependencies 40 chairActions = some (.ok ())) ∧
    ((∃ i d, (Except.ok () : Except PyErr Unit) = .error (.missingDep i d)) ↔
      ¬ ∀ a ∈ chairActions, ∀ dep ∈ a.depends_on, ∃ x ∈ chairActions, x.id = dep) ∧
    ((∀ a ∈ chairActions, ∀ dep ∈ a.depends_on, ∃ x ∈ chairActions, x.id = dep) →
      ((∃ i, (Except.ok () : Except PyErr Unit) = .error (.cycleAt i)) ↔
        ∃ i, Relation.TransGen (EdgeSpec chairActions) i i) ∧
      ((Except.ok () : Except PyErr Unit) = .ok () ↔
        ¬ ∃ i, Relation.TransGen (EdgeSpec chairActions) i i)) :=
  ⟨⟨by decide, rfl⟩, claim_C5_validate 40 chairActions (.ok ()) (by decide) rfl⟩

theorem claim_C9_complete_or_starved_witness :
    plan_parallel_actions 40 chairActions chairAgents [] =
      some (.ok (chairExpected, chairHandlerFinal)) ∧
    ((∀ i ∈ chairActions.map (fun a => a.id), countId chairExpected.stages i = 1) ∧
     (∀ asg ∈ allAsgs chairExpected.stages,
       asg.action_id ∈ chairActions.map (fun a => a.id))) :=
  ⟨rfl, claim_C9_complete_or_starved.1 40 chairActions chairAgents []
    chairExpected chairHandlerFinal rfl⟩

end PPA
